import Mathlib

/-!
# Trading order book: embedding of `OrderBook.h` / `OrderBook.cpp`

The C++ class `OrderBook` keeps two price ladders (`bids_`, `asks_`), an index
`all_orders_` from order id to `OrderInfo`, and two published best prices.

Modelling choices:

* `std::map<K, V, Compare>` is a key-sorted association list `List (K × V)`; the
  iteration order of the map is the order of the list, `begin()` is its head.
* `std::list<Order>` is a `List Node`; a `Node` is an `Order` together with the
  address of the list node holding it, and a `std::list<Order>::iterator` is that
  address.  Addresses are handed out by a counter (`next_node`), so that a node
  created by `push_front` never shares its address with a node of the book.
* `double` prices are an arbitrary linearly ordered type `P` with a zero (no NaN);
  `long long` ids are `Int` and `unsigned int` quantities are `Nat` (the code
  performs no arithmetic on either).
* `std::atomic<double>` is a plain field; the mutex is not modelled: the
  operations are taken one at a time, as the lock serialises them.
* `bids_.at(price)` throws when the key is absent and `list::erase` of an
  iterator that is not in the list is undefined: both are the result `none`.
-/

namespace TradingOrderBook

/-! ## `std::map` as a sorted association list -/

namespace StdMap

variable {K V : Type}

/-- Lookup of a key: `map::find` / `map::at`, `none` when the key is absent. -/
def find [DecidableEq K] : List (K × V) → K → Option V
  | [], _ => none
  | (k', v) :: rest, k => if k' = k then some v else find rest k

/-- Store `v` under `k`, at the place the comparator `lt` gives the key:
what `m[k] = v` does (an existing entry of that key is overwritten in place). -/
def assign (lt : K → K → Prop) [DecidableRel lt] : List (K × V) → K → V → List (K × V)
  | [], k, v => [(k, v)]
  | (k', v') :: rest, k, v =>
      if lt k k' then (k, v) :: (k', v') :: rest
      else if lt k' k then (k', v') :: assign lt rest k v
      else (k', v) :: rest

/-- Removal of a key: `map::erase(key)`. -/
def erase [DecidableEq K] (m : List (K × V)) (k : K) : List (K × V) :=
  m.filter (fun e => decide (e.1 ≠ k))

/-- The keys of the map in iteration order. -/
def keys (m : List (K × V)) : List K := m.map Prod.fst

end StdMap

/-! ## Data model (`OrderBook.h`) -/

/-- The C++ `struct Order`. -/
structure Order where
  id : Int
  quantity : Nat
  deriving DecidableEq

/-- One node of a `std::list<Order>`: the order and the address of the node. -/
structure Node where
  addr : Nat
  order : Order
  deriving DecidableEq

/-- The C++ `struct OrderInfo`; `position` is the address of the list node. -/
structure OrderInfo (P : Type) where
  price : P
  is_bid : Bool
  position : Nat
  deriving DecidableEq

/-- A price ladder: `std::map<double, std::list<Order>, Compare>`. -/
abbrev Ladder (P : Type) := List (P × List Node)

/-- The data members of the C++ `class OrderBook`, and the node allocator. -/
structure OrderBook (P : Type) where
  bids_ : Ladder P
  asks_ : Ladder P
  all_orders_ : List (Int × OrderInfo P)
  best_bid_ : P
  best_ask_ : P
  next_node : Nat

section Operations

variable {P : Type} [LinearOrder P] [Zero P]

/-- A freshly constructed book: empty maps, `best_bid_{0.0}`, `best_ask_{0.0}`. -/
def empty : OrderBook P :=
  { bids_ := [], asks_ := [], all_orders_ := [], best_bid_ := 0, best_ask_ := 0, next_node := 0 }

/-- The statement pair `auto& l = m[price]; l.push_front(node);` of `add_order`. -/
def push_front_at (lt : P → P → Prop) [DecidableRel lt] (m : Ladder P) (price : P)
    (node : Node) : Ladder P :=
  StdMap.assign lt m price (node :: (StdMap.find m price).getD [])

/-- The call `list::erase(position)`: unlinks the node at that address. -/
def list_erase : List Node → Nat → Option (List Node)
  | [], _ => none
  | n :: rest, pos => if n.addr = pos then some rest else (list_erase rest pos).map (n :: ·)

/-- The block `auto& l = m.at(price); l.erase(position); if (l.empty()) m.erase(price);`
of `cancel_order`. -/
def erase_at (lt : P → P → Prop) [DecidableRel lt] (m : Ladder P) (price : P)
    (position : Nat) : Option (Ladder P) :=
  match StdMap.find m price with
  | none => none
  | some price_level =>
    match list_erase price_level position with
    | none => none
    | some remaining =>
      if remaining.isEmpty then some (StdMap.erase m price)
      else some (StdMap.assign lt m price remaining)

/-- The expression `m.empty() ? 0.0 : m.begin()->first` of `update_best_prices`. -/
def front_price : Ladder P → P
  | [] => 0
  | (p, _) :: _ => p

/-- `OrderBook::update_best_prices`. -/
def update_best_prices (s : OrderBook P) : OrderBook P :=
  { s with best_bid_ := front_price s.bids_, best_ask_ := front_price s.asks_ }

/-- `OrderBook::add_order`. -/
def add_order (s : OrderBook P) (order_id : Int) (price : P) (quantity : Nat)
    (is_bid : Bool) : OrderBook P :=
  let node : Node := { addr := s.next_node, order := { id := order_id, quantity := quantity } }
  let info : OrderInfo P := { price := price, is_bid := is_bid, position := s.next_node }
  if is_bid then
    update_best_prices
      { s with
        bids_ := push_front_at (fun a b => a > b) s.bids_ price node
        all_orders_ := StdMap.assign (fun a b => a < b) s.all_orders_ order_id info
        next_node := s.next_node + 1 }
  else
    update_best_prices
      { s with
        asks_ := push_front_at (fun a b => a < b) s.asks_ price node
        all_orders_ := StdMap.assign (fun a b => a < b) s.all_orders_ order_id info
        next_node := s.next_node + 1 }

/-- `OrderBook::cancel_order`. -/
def cancel_order (s : OrderBook P) (order_id : Int) : Option (OrderBook P) :=
  match StdMap.find s.all_orders_ order_id with
  | none => some s
  | some info =>
    if info.is_bid then
      match erase_at (fun a b => a > b) s.bids_ info.price info.position with
      | none => none
      | some bids =>
        some (update_best_prices
          { s with bids_ := bids, all_orders_ := StdMap.erase s.all_orders_ order_id })
    else
      match erase_at (fun a b => a < b) s.asks_ info.price info.position with
      | none => none
      | some asks =>
        some (update_best_prices
          { s with asks_ := asks, all_orders_ := StdMap.erase s.all_orders_ order_id })

/-- `OrderBook::get_best_bid_ask`. -/
def get_best_bid_ask (s : OrderBook P) : P × P := (s.best_bid_, s.best_ask_)

end Operations

/-- One line that `print_book` writes to `std::cout`: a fixed text, or the line of an
order with the price of its level, its quantity and its id (the ask loop and the bid
loop write the same three values with slightly different spacing). -/
inductive Line (P : Type) where
  | text (content : String)
  | ask (price : P) (quantity : Nat) (id : Int)
  | bid (price : P) (quantity : Nat) (id : Int)
  deriving DecidableEq

/-- `OrderBook::print_book`: the lines written, in order.  The asks are walked from
`rbegin()` to `rend()`, the bids from `begin()` to `end()`, each level's list from its
first element to its last. -/
def print_book {P : Type} (s : OrderBook P) : List (Line P) :=
  [Line.text "--- ORDER BOOK ---", Line.text "ASKS:"] ++
  (if s.asks_.isEmpty then [Line.text "empty"]
   else s.asks_.reverse.flatMap
     (fun e => e.2.map (fun order => Line.ask e.1 order.order.quantity order.order.id))) ++
  [Line.text "------------", Line.text "BIDS:"] ++
  (if s.bids_.isEmpty then [Line.text "empty"]
   else s.bids_.flatMap
     (fun e => e.2.map (fun order => Line.bid e.1 order.order.quantity order.order.id))) ++
  [Line.text "------------"]

/-! ## Specification vocabulary -/

/-- The laws `std::map` asks of its comparator, for a total order of the keys. -/
structure StrictTotal {K : Type} (lt : K → K → Prop) : Prop where
  irrefl : ∀ a, ¬ lt a a
  trans : ∀ a b c, lt a b → lt b c → lt a c
  total : ∀ a b, lt a b ∨ a = b ∨ lt b a

/-- The entries of a map are in strictly increasing comparator order. -/
def StdMap.Sorted {K V : Type} (lt : K → K → Prop) (m : List (K × V)) : Prop :=
  m.Pairwise (fun a b => lt a.1 b.1)

section Vocabulary

variable {P : Type}

/-- Every order of a ladder with the price of its level, in iteration order. -/
def orders_of (m : Ladder P) : List (P × Node) :=
  m.flatMap (fun e => e.2.map (fun n => (e.1, n)))

/-- Every order held in `bids_` and `asks_`, as (is_bid, price, node). -/
def all_nodes (s : OrderBook P) : List (Bool × P × Node) :=
  (orders_of s.bids_).map (fun x => (true, x.1, x.2)) ++
    (orders_of s.asks_).map (fun x => (false, x.1, x.2))

/-- The order ids of the orders held in the ladder (with repetitions). -/
def ladder_ids (s : OrderBook P) : List Int :=
  (all_nodes s).map (fun x => x.2.2.order.id)

/-- The keys of `all_orders_`. -/
def index_ids (s : OrderBook P) : List Int := StdMap.keys s.all_orders_

/-- The ladder of one side: `bids_` for `true`, `asks_` for `false`. -/
def side (s : OrderBook P) (is_bid : Bool) : Ladder P :=
  if is_bid then s.bids_ else s.asks_

/-- The best price `get_best_bid_ask` returns for one side: `.first` for the bid
side, `.second` for the ask side. -/
def best (s : OrderBook P) (is_bid : Bool) : P :=
  if is_bid then (get_best_bid_ask s).1 else (get_best_bid_ask s).2

/-- The order ids of one price level, in the order a traversal from the first
element of the list to its last meets them. -/
def level_ids (lvl : List Node) : List Int := lvl.map (fun n => n.order.id)

/-- The order lines among the lines of a dump, in the order written, each as
(is_bid, price, quantity, id). -/
def order_lines : List (Line P) → List (Bool × P × Nat × Int)
  | [] => []
  | Line.text _ :: rest => order_lines rest
  | Line.ask p q i :: rest => (false, p, q, i) :: order_lines rest
  | Line.bid p q i :: rest => (true, p, q, i) :: order_lines rest

/-- The prices of the order lines of one side of a dump, in the order written. -/
def line_prices (is_bid : Bool) (out : List (Line P)) : List P :=
  ((order_lines out).filter (fun x => x.1 == is_bid)).map (fun x => x.2.1)

/-- What an order line shows of an order of the ladder. -/
def line_of (x : Bool × P × Node) : Bool × P × Nat × Int :=
  (x.1, x.2.1, x.2.2.order.quantity, x.2.2.order.id)

/-- The insertion time of an order: `add_order` gives the node it creates the current
value of the counter `next_node` and increments the counter, and nothing else changes
the counter, so the address of a node is the number of `add_order` calls made before
the call that inserted it. -/
def insertion_time (n : Node) : Nat := n.addr

end Vocabulary

section Reachability

variable {P : Type} [LinearOrder P] [Zero P]

/-- The states that sequences of `add_order` and `cancel_order` calls produce from
the empty book, with no condition on the ids used. -/
inductive Reachable : OrderBook P → Prop
  | init : Reachable empty
  | add (s : OrderBook P) (order_id : Int) (price : P) (quantity : Nat) (is_bid : Bool) :
      Reachable s → Reachable (add_order s order_id price quantity is_bid)
  | cancel (s r : OrderBook P) (order_id : Int) :
      Reachable s → cancel_order s order_id = some r → Reachable r

/-- The states produced from the empty book when every `add_order` uses an id that
is not a key of `all_orders_` at the time of the call. -/
inductive ReachableFresh : OrderBook P → Prop
  | init : ReachableFresh empty
  | add (s : OrderBook P) (order_id : Int) (price : P) (quantity : Nat) (is_bid : Bool) :
      ReachableFresh s → StdMap.find s.all_orders_ order_id = none →
      ReachableFresh (add_order s order_id price quantity is_bid)
  | cancel (s r : OrderBook P) (order_id : Int) :
      ReachableFresh s → cancel_order s order_id = some r → ReachableFresh r

/-- A run from `s` to `r` in which every `add_order` uses an id that is not live and
no id of `keep` is cancelled. -/
inductive FreshPath (keep : List Int) : OrderBook P → OrderBook P → Prop
  | refl (s : OrderBook P) : FreshPath keep s s
  | add (s r : OrderBook P) (order_id : Int) (price : P) (quantity : Nat) (is_bid : Bool) :
      FreshPath keep s r → StdMap.find r.all_orders_ order_id = none →
      FreshPath keep s (add_order r order_id price quantity is_bid)
  | cancel (s r t : OrderBook P) (order_id : Int) :
      FreshPath keep s r → order_id ∉ keep → cancel_order r order_id = some t →
      FreshPath keep s t

/-- The states produced from the empty book when every `add_order` is given a
strictly positive price (ids unrestricted). -/
inductive ReachablePositive : OrderBook P → Prop
  | init : ReachablePositive empty
  | add (s : OrderBook P) (order_id : Int) (price : P) (quantity : Nat) (is_bid : Bool) :
      ReachablePositive s → 0 < price →
      ReachablePositive (add_order s order_id price quantity is_bid)
  | cancel (s r : OrderBook P) (order_id : Int) :
      ReachablePositive s → cancel_order s order_id = some r → ReachablePositive r

/-- A run from `s` to `r` by any sequence of `add_order` and `cancel_order` calls. -/
inductive Steps : OrderBook P → OrderBook P → Prop
  | refl (s : OrderBook P) : Steps s s
  | add (s r : OrderBook P) (order_id : Int) (price : P) (quantity : Nat) (is_bid : Bool) :
      Steps s r → Steps s (add_order r order_id price quantity is_bid)
  | cancel (s r t : OrderBook P) (order_id : Int) :
      Steps s r → cancel_order r order_id = some t → Steps s t

/-- Representation invariant of the book that holds whatever ids are used. -/
structure WellFormed (s : OrderBook P) : Prop where
  sorted_bids : StdMap.Sorted (fun a b : P => a > b) s.bids_
  sorted_asks : StdMap.Sorted (fun a b : P => a < b) s.asks_
  sorted_index : StdMap.Sorted (fun a b : Int => a < b) s.all_orders_
  nonempty_bids : ∀ e ∈ s.bids_, e.2 ≠ []
  nonempty_asks : ∀ e ∈ s.asks_, e.2 ≠ []
  addr_nodup : ((all_nodes s).map (fun x => x.2.2.addr)).Nodup
  addr_lt : ∀ x ∈ all_nodes s, x.2.2.addr < s.next_node
  index_sound : ∀ id info, StdMap.find s.all_orders_ id = some info →
    ∃ n, (info.is_bid, info.price, n) ∈ all_nodes s ∧ n.addr = info.position ∧ n.order.id = id
  best_bid_eq : s.best_bid_ = front_price s.bids_
  best_ask_eq : s.best_ask_ = front_price s.asks_

/-- Invariant of the book when ids are never reused while live: moreover every
order of the ladder is the one its id is indexed to. -/
structure Consistent (s : OrderBook P) : Prop where
  wf : WellFormed s
  ladder_indexed : ∀ x ∈ all_nodes s,
    StdMap.find s.all_orders_ x.2.2.order.id =
      some { price := x.2.1, is_bid := x.1, position := x.2.2.addr }

/-- Calls `add_order` for each (id, price, quantity) of the list, all on one side. -/
def add_all (s : OrderBook P) (is_bid : Bool) : List (Int × P × Nat) → OrderBook P
  | [] => s
  | (order_id, price, quantity) :: rest =>
      add_all (add_order s order_id price quantity is_bid) is_bid rest

/-- Calls `cancel_order` for each id of the list in turn. -/
def cancel_all (s : OrderBook P) : List Int → Option (OrderBook P)
  | [] => some s
  | order_id :: rest =>
      match cancel_order s order_id with
      | none => none
      | some r => cancel_all r rest

end Reachability

/-! ## Sample books -/

/-- A small book with integer prices: bids 1 and 3 at 99, ask 2 at 101. -/
def sample_book : OrderBook Int :=
  add_order (add_order (add_order empty 1 99 10 true) 2 101 5 false) 3 99 7 true

/-- A book with two ask levels: ask 1 at 101 and ask 2 at 102. -/
def two_ask_book : OrderBook Int :=
  add_order (add_order empty 1 101 5 false) 2 102 4 false

/-- A book in which id 1 was inserted twice: at 99 and then, while live, at 98. -/
def reused_id_book : OrderBook Int :=
  add_order (add_order empty 1 99 10 true) 1 98 5 true

/-! ## Lemmas on the map model -/

namespace StdMap

variable {K V : Type}

theorem strictTotal_lt {P : Type} [LinearOrder P] : StrictTotal (fun a b : P => a < b) :=
  ⟨fun a => lt_irrefl a, fun _ _ _ h1 h2 => lt_trans h1 h2, fun a b => lt_trichotomy a b⟩

theorem strictTotal_gt {P : Type} [LinearOrder P] : StrictTotal (fun a b : P => a > b) :=
  ⟨fun a => lt_irrefl a, fun _ _ _ h1 h2 => lt_trans h2 h1,
    fun a b => (lt_trichotomy a b).elim (fun h => Or.inr (Or.inr h))
      (fun h => h.elim (fun e => Or.inr (Or.inl e)) (fun g => Or.inl g))⟩

theorem find_assign [DecidableEq K] {lt : K → K → Prop} [DecidableRel lt]
    (hlt : StrictTotal lt) (m : List (K × V)) (k : K) (v : V) (k' : K) :
    find (assign lt m k v) k' = if k' = k then some v else find m k' := by
  induction m with
  | nil =>
    by_cases h : k' = k
    · simp [assign, find, h]
    · have h' : ¬ k = k' := fun e => h e.symm
      simp [assign, find, h, h']
  | cons e rest ih =>
    obtain ⟨k0, v0⟩ := e
    unfold assign
    by_cases h1 : lt k k0
    · rw [if_pos h1]
      by_cases h : k' = k
      · simp [find, h]
      · have h' : ¬ k = k' := fun e => h e.symm
        simp [find, h, h']
    · rw [if_neg h1]
      by_cases h2 : lt k0 k
      · rw [if_pos h2]
        have hne : k0 ≠ k := fun e => hlt.irrefl k (e ▸ h2)
        by_cases h : k' = k
        · subst h
          simp [find, hne, ih]
        · simp only [find, ih, if_neg h]
      · rw [if_neg h2]
        have he : k0 = k := by
          rcases hlt.total k k0 with h | h | h
          · exact absurd h h1
          · exact h.symm
          · exact absurd h h2
        subst he
        by_cases h : k' = k0
        · subst h; simp [find]
        · have h' : ¬ k0 = k' := fun e => h e.symm
          simp [find, h, h']

theorem find_erase [DecidableEq K] (m : List (K × V)) (k k' : K) :
    find (erase m k) k' = if k' = k then none else find m k' := by
  induction m with
  | nil => simp [erase, find]
  | cons e rest ih =>
    obtain ⟨k0, v0⟩ := e
    unfold erase at ih ⊢
    by_cases h0 : k0 = k
    · subst h0
      simp only [List.filter, ne_eq, not_true_eq_false, decide_False]
      rw [ih]
      by_cases h : k' = k0
      · simp [h]
      · have h' : ¬ k0 = k' := fun e => h e.symm
        simp [find, h, h']
    · simp only [List.filter, ne_eq, h0, not_false_eq_true, decide_True, find]
      rw [ih]
      by_cases h : k' = k
      · subst h; simp [h0]
      · simp [h]

theorem mem_of_find [DecidableEq K] {m : List (K × V)} {k : K} {v : V}
    (h : find m k = some v) : (k, v) ∈ m := by
  induction m with
  | nil => simp [find] at h
  | cons e rest ih =>
    obtain ⟨k0, v0⟩ := e
    by_cases h0 : k0 = k
    · subst h0
      simp [find] at h
      subst h
      exact List.mem_cons_self _ _
    · simp only [find, if_neg h0] at h
      exact List.mem_cons_of_mem _ (ih h)

theorem find_eq_none [DecidableEq K] {m : List (K × V)} {k : K} :
    find m k = none ↔ k ∉ keys m := by
  induction m with
  | nil => simp [find, keys]
  | cons e rest ih =>
    obtain ⟨k0, v0⟩ := e
    by_cases h0 : k0 = k
    · subst h0; simp [find, keys]
    · have h' : ¬ k = k0 := fun e => h0 e.symm
      simp only [find, if_neg h0, ih]
      simp [keys, h']

theorem mem_keys_iff [DecidableEq K] {m : List (K × V)} {k : K} :
    k ∈ keys m ↔ ∃ v, find m k = some v := by
  constructor
  · intro h
    cases hf : find m k with
    | none => exact absurd h (find_eq_none.mp hf)
    | some v => exact ⟨v, rfl⟩
  · rintro ⟨v, hv⟩
    by_contra hc
    rw [find_eq_none.mpr hc] at hv
    cases hv

theorem find_of_mem [DecidableEq K] {lt : K → K → Prop} (hlt : StrictTotal lt)
    {m : List (K × V)} (hs : Sorted lt m) {k : K} {v : V} (h : (k, v) ∈ m) :
    find m k = some v := by
  induction m with
  | nil => cases h
  | cons e rest ih =>
    obtain ⟨k0, v0⟩ := e
    rw [Sorted, List.pairwise_cons] at hs
    rcases List.mem_cons.mp h with h | h
    · cases h; simp [find]
    · have hne : k0 ≠ k := fun e => hlt.irrefl k (by simpa [e] using hs.1 _ h)
      simp only [find, if_neg hne]
      exact ih hs.2 h

theorem mem_assign {lt : K → K → Prop} [DecidableRel lt] (hlt : StrictTotal lt)
    {m : List (K × V)} {k : K} {v : V} {e : K × V} (h : e ∈ assign lt m k v) :
    e = (k, v) ∨ e ∈ m := by
  induction m with
  | nil => simpa [assign] using h
  | cons e0 rest ih =>
    obtain ⟨k0, v0⟩ := e0
    unfold assign at h
    split_ifs at h with h1 h2
    · rcases List.mem_cons.mp h with h | h
      · exact Or.inl h
      · exact Or.inr h
    · rcases List.mem_cons.mp h with h | h
      · exact Or.inr (h ▸ List.mem_cons_self _ _)
      · rcases ih h with h | h
        · exact Or.inl h
        · exact Or.inr (List.mem_cons_of_mem _ h)
    · have he : k0 = k := by
        rcases hlt.total k k0 with h | h | h
        · exact absurd h h1
        · exact h.symm
        · exact absurd h h2
      subst he
      rcases List.mem_cons.mp h with h | h
      · exact Or.inl h
      · exact Or.inr (List.mem_cons_of_mem _ h)

theorem mem_erase [DecidableEq K] {m : List (K × V)} {k : K} {e : K × V}
    (h : e ∈ erase m k) : e ∈ m := by
  unfold erase at h
  exact (List.mem_filter.mp h).1

theorem sorted_erase [DecidableEq K] {lt : K → K → Prop} {m : List (K × V)}
    (hs : Sorted lt m) (k : K) : Sorted lt (erase m k) := by
  unfold Sorted erase
  exact List.Pairwise.filter _ hs

theorem sorted_assign {lt : K → K → Prop} [DecidableRel lt] (hlt : StrictTotal lt)
    {m : List (K × V)} (hs : Sorted lt m) (k : K) (v : V) : Sorted lt (assign lt m k v) := by
  induction m with
  | nil => simp [assign, Sorted]
  | cons e0 rest ih =>
    obtain ⟨k0, v0⟩ := e0
    have hs' := hs
    rw [Sorted, List.pairwise_cons] at hs'
    unfold assign
    split_ifs with h1 h2
    · rw [Sorted, List.pairwise_cons]
      refine ⟨?_, hs⟩
      intro e he
      rcases List.mem_cons.mp he with he | he
      · subst he; exact h1
      · exact hlt.trans _ _ _ h1 (hs'.1 e he)
    · rw [Sorted, List.pairwise_cons]
      refine ⟨?_, ih hs'.2⟩
      intro e he
      rcases mem_assign hlt he with he | he
      · subst he; exact h2
      · exact hs'.1 e he
    · rw [Sorted, List.pairwise_cons]
      exact ⟨hs'.1, hs'.2⟩

end StdMap

namespace StdMap

variable {K V : Type}

theorem lt_asymm_of {lt : K → K → Prop} (hlt : StrictTotal lt) {a b : K}
    (h : lt a b) : ¬ lt b a :=
  fun h' => hlt.irrefl a (hlt.trans a b a h h')

theorem erase_cons [DecidableEq K] (k0 : K) (v0 : V) (rest : List (K × V)) (k : K) :
    erase ((k0, v0) :: rest) k = if k0 = k then erase rest k else (k0, v0) :: erase rest k := by
  unfold erase
  by_cases h : k0 = k
  · simp [List.filter, h]
  · simp [List.filter, h]

theorem erase_of_not_mem [DecidableEq K] {m : List (K × V)} {k : K}
    (h : ∀ e ∈ m, e.1 ≠ k) : erase m k = m := by
  unfold erase
  rw [List.filter_eq_self]
  intro e he
  simpa using h e he

/-- A key that is present splits the map around its entry; erasing and
overwriting act on that entry alone. -/
theorem split_of_find [DecidableEq K] {lt : K → K → Prop} [DecidableRel lt]
    (hlt : StrictTotal lt) {m : List (K × V)} (hs : Sorted lt m) {k : K} {v : V}
    (h : find m k = some v) :
    ∃ l1 l2, m = l1 ++ (k, v) :: l2 ∧ erase m k = l1 ++ l2 ∧
      ∀ w, assign lt m k w = l1 ++ (k, w) :: l2 := by
  induction m with
  | nil => simp [find] at h
  | cons e rest ih =>
    obtain ⟨k0, v0⟩ := e
    have hs' := hs
    rw [Sorted, List.pairwise_cons] at hs'
    by_cases h0 : k0 = k
    · subst h0
      simp only [find, if_true, Option.some.injEq] at h
      subst h
      refine ⟨[], rest, rfl, ?_, ?_⟩
      · have hrest : erase rest k0 = rest :=
          erase_of_not_mem (fun e he e0 => hlt.irrefl k0 (by simpa [e0] using hs'.1 e he))
        rw [erase_cons, if_pos rfl, hrest]
        rfl
      · intro w
        simp [assign, hlt.irrefl k0]
    · simp only [find, if_neg h0] at h
      obtain ⟨l1, l2, e1, e2, e3⟩ := ih hs'.2 h
      have hmem : (k, v) ∈ rest := mem_of_find h
      have hlt0 : lt k0 k := hs'.1 _ hmem
      refine ⟨(k0, v0) :: l1, l2, by simp [e1], ?_, ?_⟩
      · rw [erase_cons, if_neg h0, e2]
        rfl
      · intro w
        simp [assign, lt_asymm_of hlt hlt0, hlt0, e3 w]

/-- A key that is absent is inserted between two parts of the map. -/
theorem split_of_find_none [DecidableEq K] {lt : K → K → Prop} [DecidableRel lt]
    (hlt : StrictTotal lt) {m : List (K × V)} {k : K} (h : find m k = none) :
    ∃ l1 l2, m = l1 ++ l2 ∧ ∀ w, assign lt m k w = l1 ++ (k, w) :: l2 := by
  induction m with
  | nil => exact ⟨[], [], rfl, fun w => by simp [assign]⟩
  | cons e rest ih =>
    obtain ⟨k0, v0⟩ := e
    by_cases h0 : k0 = k
    · simp [find, h0] at h
    · simp only [find, if_neg h0] at h
      by_cases h1 : lt k k0
      · exact ⟨[], (k0, v0) :: rest, rfl, fun w => by simp [assign, h1]⟩
      · have h2 : lt k0 k := by
          rcases hlt.total k k0 with h | h | h
          · exact absurd h h1
          · exact absurd h.symm h0
          · exact h
        obtain ⟨l1, l2, e1, e3⟩ := ih h
        exact ⟨(k0, v0) :: l1, l2, by simp [e1], fun w => by simp [assign, h1, h2, e3 w]⟩

end StdMap

section ListNodes

theorem list_erase_some {l : List Node} {pos : Nat} {r : List Node}
    (h : list_erase l pos = some r) :
    ∃ a n b, l = a ++ n :: b ∧ r = a ++ b ∧ n.addr = pos ∧ ∀ x ∈ a, x.addr ≠ pos := by
  induction l generalizing r with
  | nil => simp [list_erase] at h
  | cons n0 rest ih =>
    unfold list_erase at h
    by_cases h0 : n0.addr = pos
    · rw [if_pos h0] at h
      cases h
      exact ⟨[], n0, rest, rfl, rfl, h0, fun x hx => by cases hx⟩
    · rw [if_neg h0] at h
      cases hr : list_erase rest pos with
      | none => rw [hr] at h; cases h
      | some r0 =>
        rw [hr] at h
        cases h
        obtain ⟨a, n, b, e1, e2, e3, e4⟩ := ih hr
        refine ⟨n0 :: a, n, b, by simp [e1], by simp [e2], e3, ?_⟩
        intro x hx
        rcases List.mem_cons.mp hx with hx | hx
        · subst hx; exact h0
        · exact e4 x hx

theorem list_erase_of_mem {l : List Node} {pos : Nat} {n : Node}
    (hn : n ∈ l) (hp : n.addr = pos) : ∃ r, list_erase l pos = some r := by
  induction l with
  | nil => cases hn
  | cons n0 rest ih =>
    unfold list_erase
    by_cases h0 : n0.addr = pos
    · exact ⟨rest, by rw [if_pos h0]⟩
    · rw [if_neg h0]
      rcases List.mem_cons.mp hn with hn | hn
      · subst hn; exact absurd hp h0
      · obtain ⟨r, hr⟩ := ih hn
        exact ⟨n0 :: r, by rw [hr]; rfl⟩

end ListNodes

section LadderLemmas

variable {P : Type}

theorem orders_of_append (l1 l2 : Ladder P) :
    orders_of (l1 ++ l2) = orders_of l1 ++ orders_of l2 := by
  simp [orders_of, List.flatMap_append]

theorem orders_of_cons (p : P) (lvl : List Node) (l : Ladder P) :
    orders_of ((p, lvl) :: l) = lvl.map (fun n => (p, n)) ++ orders_of l := by
  simp [orders_of, List.flatMap_cons]

theorem mem_orders_of {m : Ladder P} {p : P} {n : Node} :
    (p, n) ∈ orders_of m ↔ ∃ lvl, (p, lvl) ∈ m ∧ n ∈ lvl := by
  unfold orders_of
  simp only [List.mem_flatMap, List.mem_map, Prod.mk.injEq, Prod.exists]
  constructor
  · rintro ⟨a, b, hab, n0, hn0, rfl, rfl⟩
    exact ⟨b, hab, hn0⟩
  · rintro ⟨lvl, h1, h2⟩
    exact ⟨p, lvl, h1, n, h2, rfl, rfl⟩

variable [LinearOrder P]

/-- What `m[price].push_front(node)` does to the ladder. -/
theorem push_front_at_spec {lt : P → P → Prop} [DecidableRel lt] (hlt : StrictTotal lt)
    {m : Ladder P} (hs : StdMap.Sorted lt m) (p : P) (n : Node) :
    ∃ l1 l2 lvl, m = l1 ++ (match StdMap.find m p with
        | none => l2
        | some _ => (p, lvl) :: l2) ∧
      (StdMap.find m p).getD [] = lvl ∧
      push_front_at lt m p n = l1 ++ (p, n :: lvl) :: l2 := by
  unfold push_front_at
  cases hf : StdMap.find m p with
  | none =>
    obtain ⟨l1, l2, e1, e2⟩ := StdMap.split_of_find_none hlt hf
    exact ⟨l1, l2, [], e1, rfl, e2 _⟩
  | some lvl =>
    obtain ⟨l1, l2, e1, _, e3⟩ := StdMap.split_of_find hlt hs hf
    exact ⟨l1, l2, lvl, e1, rfl, e3 _⟩

/-- What the erase block of `cancel_order` does to the ladder when it succeeds. -/
theorem erase_at_spec {lt : P → P → Prop} [DecidableRel lt] (hlt : StrictTotal lt)
    {m : Ladder P} (hs : StdMap.Sorted lt m) {p : P} {pos : Nat} {r : Ladder P}
    (h : erase_at lt m p pos = some r) :
    ∃ l1 l2 a n b, m = l1 ++ (p, a ++ n :: b) :: l2 ∧ n.addr = pos ∧
      (∀ x ∈ a, x.addr ≠ pos) ∧
      r = (if a ++ b = [] then l1 ++ l2 else l1 ++ (p, a ++ b) :: l2) := by
  unfold erase_at at h
  cases hf : StdMap.find m p with
  | none => simp [hf] at h
  | some lvl =>
    simp only [hf] at h
    cases he : list_erase lvl pos with
    | none => simp [he] at h
    | some rem =>
      simp only [he] at h
      obtain ⟨a, n, b, e1, e2, e3, e4⟩ := list_erase_some he
      obtain ⟨l1, l2, f1, f2, f3⟩ := StdMap.split_of_find hlt hs hf
      refine ⟨l1, l2, a, n, b, by rw [f1, e1], e3, e4, ?_⟩
      subst e2
      by_cases hemp : a ++ b = []
      · simp only [hemp, List.isEmpty_nil, if_true, Option.some.injEq] at h
        rw [if_pos hemp, ← h, f2]
      · have : (a ++ b).isEmpty = false := by
          cases hab : a ++ b with
          | nil => exact absurd hab hemp
          | cons _ _ => rfl
        simp only [this, Bool.false_eq_true, if_false, Option.some.injEq] at h
        rw [if_neg hemp, ← h, f3]

theorem perm_push_front_at {lt : P → P → Prop} [DecidableRel lt] (hlt : StrictTotal lt)
    {m : Ladder P} (hs : StdMap.Sorted lt m) (p : P) (n : Node) :
    (orders_of (push_front_at lt m p n)).Perm ((p, n) :: orders_of m) := by
  obtain ⟨l1, l2, lvl, e1, _, e3⟩ := push_front_at_spec hlt hs p n
  rw [e3]
  cases hf : StdMap.find m p with
  | none =>
    rw [hf] at e1
    simp only at e1
    have e4 : lvl = [] := by simp_all
    subst e4
    conv_rhs => rw [e1]
    simp only [orders_of_append, orders_of_cons, List.map_cons, List.map_nil, List.nil_append,
      List.cons_append]
    exact List.perm_middle
  | some lvl0 =>
    rw [hf] at e1
    simp only at e1
    conv_rhs => rw [e1]
    simp only [orders_of_append, orders_of_cons, List.map_cons, List.cons_append]
    exact List.perm_middle

theorem perm_erase_at {lt : P → P → Prop} [DecidableRel lt] (hlt : StrictTotal lt)
    {m : Ladder P} (hs : StdMap.Sorted lt m) {p : P} {pos : Nat} {r : Ladder P}
    (h : erase_at lt m p pos = some r) :
    ∃ n, n.addr = pos ∧ (orders_of m).Perm ((p, n) :: orders_of r) := by
  obtain ⟨l1, l2, a, n, b, e1, e2, _, e4⟩ := erase_at_spec hlt hs h
  refine ⟨n, e2, ?_⟩
  rw [e1, e4]
  by_cases hemp : a ++ b = []
  · rw [if_pos hemp]
    obtain ⟨ha, hb⟩ := List.append_eq_nil.mp hemp
    subst ha hb
    simp only [orders_of_append, orders_of_cons, List.nil_append, List.map_cons, List.map_nil,
      List.cons_append]
    exact List.perm_middle
  · rw [if_neg hemp]
    simp only [orders_of_append, orders_of_cons, List.map_append, List.map_cons,
      List.append_assoc, List.cons_append]
    refine List.Perm.trans ?_ List.perm_middle
    refine List.Perm.append_left _ ?_
    refine List.Perm.trans (List.perm_middle) ?_
    simp

end LadderLemmas

section StateLemmas

variable {P : Type} [LinearOrder P] [Zero P]

theorem all_nodes_perm_add (s : OrderBook P) (hb : StdMap.Sorted (fun a b : P => a > b) s.bids_)
    (ha : StdMap.Sorted (fun a b : P => a < b) s.asks_)
    (id : Int) (p : P) (q : Nat) (b : Bool) :
    (all_nodes (add_order s id p q b)).Perm
      ((b, p, { addr := s.next_node, order := { id := id, quantity := q } }) :: all_nodes s) := by
  cases b with
  | true =>
    simp only [add_order, if_true, update_best_prices, all_nodes]
    have h := (perm_push_front_at StdMap.strictTotal_gt hb p
      { addr := s.next_node, order := { id := id, quantity := q } }).map
      (fun x : P × Node => (true, x.1, x.2))
    simpa using h.append_right _
  | false =>
    simp only [add_order, Bool.false_eq_true, if_false, update_best_prices, all_nodes]
    have h := (perm_push_front_at StdMap.strictTotal_lt ha p
      { addr := s.next_node, order := { id := id, quantity := q } }).map
      (fun x : P × Node => (false, x.1, x.2))
    refine List.Perm.trans (List.Perm.append_left _ h) ?_
    simp

theorem add_order_index (s : OrderBook P) (id : Int) (p : P) (q : Nat) (b : Bool) :
    (add_order s id p q b).all_orders_ =
      StdMap.assign (fun a b => a < b) s.all_orders_ id
        { price := p, is_bid := b, position := s.next_node } := by
  cases b <;> rfl

theorem add_order_next (s : OrderBook P) (id : Int) (p : P) (q : Nat) (b : Bool) :
    (add_order s id p q b).next_node = s.next_node + 1 := by
  cases b <;> rfl

theorem add_order_best (s : OrderBook P) (id : Int) (p : P) (q : Nat) (b : Bool) :
    (add_order s id p q b).best_bid_ = front_price (add_order s id p q b).bids_ ∧
    (add_order s id p q b).best_ask_ = front_price (add_order s id p q b).asks_ := by
  cases b <;> exact ⟨rfl, rfl⟩

theorem add_order_side (s : OrderBook P) (id : Int) (p : P) (q : Nat) :
    (add_order s id p q true).bids_ = push_front_at (fun a b => a > b) s.bids_ p
        { addr := s.next_node, order := { id := id, quantity := q } } ∧
    (add_order s id p q true).asks_ = s.asks_ ∧
    (add_order s id p q false).asks_ = push_front_at (fun a b => a < b) s.asks_ p
        { addr := s.next_node, order := { id := id, quantity := q } } ∧
    (add_order s id p q false).bids_ = s.bids_ :=
  ⟨rfl, rfl, rfl, rfl⟩

/-- Unfolding of a `cancel_order` call on a live id. -/
theorem cancel_order_live {s r : OrderBook P} {id : Int} {info : OrderInfo P}
    (hf : StdMap.find s.all_orders_ id = some info) (hc : cancel_order s id = some r) :
    r.all_orders_ = StdMap.erase s.all_orders_ id ∧ r.next_node = s.next_node ∧
    r.best_bid_ = front_price r.bids_ ∧ r.best_ask_ = front_price r.asks_ ∧
    (info.is_bid = true →
      erase_at (fun a b => a > b) s.bids_ info.price info.position = some r.bids_ ∧
      r.asks_ = s.asks_) ∧
    (info.is_bid = false →
      erase_at (fun a b => a < b) s.asks_ info.price info.position = some r.asks_ ∧
      r.bids_ = s.bids_) := by
  unfold cancel_order at hc
  simp only [hf] at hc
  by_cases hb : info.is_bid = true
  · simp only [hb, if_true] at hc
    cases he : erase_at (fun a b => a > b) s.bids_ info.price info.position with
    | none => simp [he] at hc
    | some bids =>
      simp only [he, Option.some.injEq] at hc
      subst hc
      simp [update_best_prices, hb]
  · have hb' : info.is_bid = false := by simpa using hb
    simp only [hb', Bool.false_eq_true, if_false] at hc
    cases he : erase_at (fun a b => a < b) s.asks_ info.price info.position with
    | none => simp [he] at hc
    | some asks =>
      simp only [he, Option.some.injEq] at hc
      subst hc
      simp [update_best_prices, hb']

theorem cancel_order_absent (s : OrderBook P) (id : Int)
    (hf : StdMap.find s.all_orders_ id = none) : cancel_order s id = some s := by
  unfold cancel_order
  simp [hf]

theorem all_nodes_perm_cancel {s r : OrderBook P} {id : Int} {info : OrderInfo P}
    (hb : StdMap.Sorted (fun a b : P => a > b) s.bids_)
    (ha : StdMap.Sorted (fun a b : P => a < b) s.asks_)
    (hf : StdMap.find s.all_orders_ id = some info) (hc : cancel_order s id = some r) :
    ∃ n, n.addr = info.position ∧
      (all_nodes s).Perm ((info.is_bid, info.price, n) :: all_nodes r) := by
  obtain ⟨_, _, _, _, h1, h2⟩ := cancel_order_live hf hc
  cases hside : info.is_bid with
  | true =>
    obtain ⟨he, hother⟩ := h1 hside
    obtain ⟨n, hn, hp⟩ := perm_erase_at StdMap.strictTotal_gt hb he
    refine ⟨n, hn, ?_⟩
    have h := hp.map (fun x : P × Node => (true, x.1, x.2))
    simp only [all_nodes, hother]
    simpa using h.append_right _
  | false =>
    obtain ⟨he, hother⟩ := h2 hside
    obtain ⟨n, hn, hp⟩ := perm_erase_at StdMap.strictTotal_lt ha he
    refine ⟨n, hn, ?_⟩
    have h := hp.map (fun x : P × Node => (false, x.1, x.2))
    simp only [all_nodes, hother]
    refine List.Perm.trans (List.Perm.append_left _ h) ?_
    simp

end StateLemmas

section LadderInvariants

variable {P : Type}

theorem mem_all_nodes {s : OrderBook P} {b : Bool} {p : P} {n : Node} :
    (b, p, n) ∈ all_nodes s ↔ (p, n) ∈ orders_of (side s b) := by
  cases b <;> simp [all_nodes, side]

variable [LinearOrder P]

theorem sorted_push_front_at {lt : P → P → Prop} [DecidableRel lt] (hlt : StrictTotal lt)
    {m : Ladder P} (hs : StdMap.Sorted lt m) (p : P) (n : Node) :
    StdMap.Sorted lt (push_front_at lt m p n) :=
  StdMap.sorted_assign hlt hs _ _

theorem nonempty_push_front_at {lt : P → P → Prop} [DecidableRel lt] (hlt : StrictTotal lt)
    {m : Ladder P} (hne : ∀ e ∈ m, e.2 ≠ []) (p : P) (n : Node) :
    ∀ e ∈ push_front_at lt m p n, e.2 ≠ [] := by
  intro e he
  rcases StdMap.mem_assign hlt he with h | h
  · subst h; simp
  · exact hne e h

theorem sorted_erase_at {lt : P → P → Prop} [DecidableRel lt] (hlt : StrictTotal lt)
    {m : Ladder P} (hs : StdMap.Sorted lt m) {p : P} {pos : Nat} {r : Ladder P}
    (h : erase_at lt m p pos = some r) : StdMap.Sorted lt r := by
  unfold erase_at at h
  cases hf : StdMap.find m p with
  | none => simp [hf] at h
  | some lvl =>
    simp only [hf] at h
    cases he : list_erase lvl pos with
    | none => simp [he] at h
    | some rem =>
      simp only [he] at h
      split_ifs at h
      · cases h; exact StdMap.sorted_erase hs _
      · cases h; exact StdMap.sorted_assign hlt hs _ _

theorem nonempty_erase_at {lt : P → P → Prop} [DecidableRel lt] (hlt : StrictTotal lt)
    {m : Ladder P} (hne : ∀ e ∈ m, e.2 ≠ []) {p : P} {pos : Nat} {r : Ladder P}
    (h : erase_at lt m p pos = some r) : ∀ e ∈ r, e.2 ≠ [] := by
  unfold erase_at at h
  cases hf : StdMap.find m p with
  | none => simp [hf] at h
  | some lvl =>
    simp only [hf] at h
    cases he : list_erase lvl pos with
    | none => simp [he] at h
    | some rem =>
      simp only [he] at h
      split_ifs at h with hemp
      · cases h
        intro e hm
        exact hne e (StdMap.mem_erase hm)
      · cases h
        intro e hm
        rcases StdMap.mem_assign hlt hm with h | h
        · subst h
          intro h0
          simp only at h0
          subst h0
          simp at hemp
        · exact hne e h

theorem erase_at_total (lt : P → P → Prop) [DecidableRel lt] {m : Ladder P} {p : P}
    {lvl : List Node} {n : Node} (hf : StdMap.find m p = some lvl) (hn : n ∈ lvl) :
    ∃ r, erase_at lt m p n.addr = some r := by
  obtain ⟨rem, hr⟩ := list_erase_of_mem hn rfl
  unfold erase_at
  simp only [hf, hr]
  split_ifs
  · exact ⟨_, rfl⟩
  · exact ⟨_, rfl⟩

end LadderInvariants

section Invariants

variable {P : Type} [LinearOrder P] [Zero P]

theorem wellFormed_empty : WellFormed (empty : OrderBook P) where
  sorted_bids := List.Pairwise.nil
  sorted_asks := List.Pairwise.nil
  sorted_index := List.Pairwise.nil
  nonempty_bids := by intro e he; cases he
  nonempty_asks := by intro e he; cases he
  addr_nodup := by simp [all_nodes, orders_of, empty]
  addr_lt := by intro x hx; simp [all_nodes, orders_of, empty] at hx
  index_sound := by intro id info h; simp [empty, StdMap.find] at h
  best_bid_eq := rfl
  best_ask_eq := rfl

theorem wellFormed_add {s : OrderBook P} (h : WellFormed s) (id : Int) (p : P) (q : Nat)
    (b : Bool) : WellFormed (add_order s id p q b) := by
  have hperm := all_nodes_perm_add s h.sorted_bids h.sorted_asks id p q b
  obtain ⟨hs1, hs2, hs3, hs4⟩ := add_order_side s id p q
  refine ⟨?_, ?_, ?_, ?_, ?_, ?_, ?_, ?_, (add_order_best s id p q b).1,
    (add_order_best s id p q b).2⟩
  · cases b
    · rw [hs4]; exact h.sorted_bids
    · rw [hs1]; exact sorted_push_front_at StdMap.strictTotal_gt h.sorted_bids _ _
  · cases b
    · rw [hs3]; exact sorted_push_front_at StdMap.strictTotal_lt h.sorted_asks _ _
    · rw [hs2]; exact h.sorted_asks
  · rw [add_order_index]
    exact StdMap.sorted_assign StdMap.strictTotal_lt h.sorted_index _ _
  · cases b
    · rw [hs4]; exact h.nonempty_bids
    · rw [hs1]; exact nonempty_push_front_at StdMap.strictTotal_gt h.nonempty_bids _ _
  · cases b
    · rw [hs3]; exact nonempty_push_front_at StdMap.strictTotal_lt h.nonempty_asks _ _
    · rw [hs2]; exact h.nonempty_asks
  · rw [(hperm.map _).nodup_iff, List.map_cons, List.nodup_cons]
    refine ⟨?_, h.addr_nodup⟩
    intro hmem
    obtain ⟨x, hx, hxe⟩ := List.mem_map.mp hmem
    have := h.addr_lt x hx
    simp only at hxe
    omega
  · intro x hx
    rw [add_order_next]
    rcases List.mem_cons.mp (hperm.mem_iff.mp hx) with hx | hx
    · subst hx; simp
    · exact Nat.lt_succ_of_lt (h.addr_lt x hx)
  · intro id' info hf
    rw [add_order_index, StdMap.find_assign StdMap.strictTotal_lt] at hf
    by_cases hid : id' = id
    · rw [if_pos hid] at hf
      cases hf
      exact ⟨_, hperm.mem_iff.mpr (List.mem_cons_self _ _), rfl, hid.symm⟩
    · rw [if_neg hid] at hf
      obtain ⟨n, hn, h1, h2⟩ := h.index_sound id' info hf
      exact ⟨n, hperm.mem_iff.mpr (List.mem_cons_of_mem _ hn), h1, h2⟩

/-- Two orders of the ladder at the same address are the same order at the same place. -/
theorem WellFormed.addr_inj {s : OrderBook P} (h : WellFormed s) {x y : Bool × P × Node}
    (hx : x ∈ all_nodes s) (hy : y ∈ all_nodes s) (he : x.2.2.addr = y.2.2.addr) : x = y :=
  List.inj_on_of_nodup_map h.addr_nodup hx hy he

theorem wellFormed_cancel {s r : OrderBook P} (h : WellFormed s) {id : Int}
    (hc : cancel_order s id = some r) : WellFormed r := by
  cases hf : StdMap.find s.all_orders_ id with
  | none =>
    rw [cancel_order_absent s id hf] at hc
    cases hc
    exact h
  | some info =>
    obtain ⟨hidx, hnext, hbb, hba, h1, h2⟩ := cancel_order_live hf hc
    obtain ⟨n, hn, hperm⟩ := all_nodes_perm_cancel h.sorted_bids h.sorted_asks hf hc
    have hsub : ∀ x, x ∈ all_nodes r → x ∈ all_nodes s :=
      fun x hx => hperm.mem_iff.mpr (List.mem_cons_of_mem _ hx)
    have hnd : (((info.is_bid, info.price, n) :: all_nodes r).map (fun x => x.2.2.addr)).Nodup :=
      (hperm.map _).nodup_iff.mp h.addr_nodup
    rw [List.map_cons, List.nodup_cons] at hnd
    refine ⟨?_, ?_, ?_, ?_, ?_, hnd.2, ?_, ?_, hbb, hba⟩
    · cases hside : info.is_bid
      · rw [(h2 hside).2]; exact h.sorted_bids
      · exact sorted_erase_at StdMap.strictTotal_gt h.sorted_bids (h1 hside).1
    · cases hside : info.is_bid
      · exact sorted_erase_at StdMap.strictTotal_lt h.sorted_asks (h2 hside).1
      · rw [(h1 hside).2]; exact h.sorted_asks
    · rw [hidx]; exact StdMap.sorted_erase h.sorted_index _
    · cases hside : info.is_bid
      · rw [(h2 hside).2]; exact h.nonempty_bids
      · exact nonempty_erase_at StdMap.strictTotal_gt h.nonempty_bids (h1 hside).1
    · cases hside : info.is_bid
      · exact nonempty_erase_at StdMap.strictTotal_lt h.nonempty_asks (h2 hside).1
      · rw [(h1 hside).2]; exact h.nonempty_asks
    · intro x hx
      rw [hnext]
      exact h.addr_lt x (hsub x hx)
    · intro id' info' hf'
      rw [hidx, StdMap.find_erase] at hf'
      by_cases hid : id' = id
      · rw [if_pos hid] at hf'; cases hf'
      · rw [if_neg hid] at hf'
        obtain ⟨n', hn', e1, e2⟩ := h.index_sound id' info' hf'
        refine ⟨n', ?_, e1, e2⟩
        rcases List.mem_cons.mp (hperm.mem_iff.mp hn') with hx | hx
        · exfalso
          obtain ⟨n0, hn0, f1, f2⟩ := h.index_sound id info hf
          have hmem : (info.is_bid, info.price, n) ∈ all_nodes s :=
            hperm.mem_iff.mpr (List.mem_cons_self _ _)
          have := h.addr_inj hn0 hmem (by simp [f1, hn])
          have hnn : n' = n := by
            have := congrArg (fun x : Bool × P × Node => x.2.2) hx
            simpa using this
          have hn0n : n0 = n := by
            have := congrArg (fun x : Bool × P × Node => x.2.2) this
            simpa using this
          apply hid
          rw [← e2, hnn, ← hn0n, f2]
        · exact hx

theorem cancel_order_total {s : OrderBook P} (h : WellFormed s) (id : Int) :
    ∃ r, cancel_order s id = some r := by
  cases hf : StdMap.find s.all_orders_ id with
  | none => exact ⟨s, cancel_order_absent s id hf⟩
  | some info =>
    obtain ⟨n, hn, e1, _⟩ := h.index_sound id info hf
    rw [mem_all_nodes, mem_orders_of] at hn
    obtain ⟨lvl, hl, hnl⟩ := hn
    unfold cancel_order
    simp only [hf]
    cases hside : info.is_bid with
    | true =>
      rw [hside] at hl
      have hfind := StdMap.find_of_mem StdMap.strictTotal_gt h.sorted_bids hl
      obtain ⟨r, hr⟩ := erase_at_total (fun a b => a > b) hfind hnl
      rw [e1] at hr
      simp [hr]
    | false =>
      rw [hside] at hl
      have hfind := StdMap.find_of_mem StdMap.strictTotal_lt h.sorted_asks hl
      obtain ⟨r, hr⟩ := erase_at_total (fun a b => a < b) hfind hnl
      rw [e1] at hr
      simp [hr]

theorem Reachable.wellFormed {s : OrderBook P} (h : Reachable s) : WellFormed s := by
  induction h with
  | init => exact wellFormed_empty
  | add s id p q b _ ih => exact wellFormed_add ih id p q b
  | cancel s r id _ hc ih => exact wellFormed_cancel ih hc

theorem ReachableFresh.reachable {s : OrderBook P} (h : ReachableFresh s) : Reachable s := by
  induction h with
  | init => exact Reachable.init
  | add s id p q b _ _ ih => exact Reachable.add s id p q b ih
  | cancel s r id _ hc ih => exact Reachable.cancel s r id ih hc

end Invariants

section FreshInvariant

variable {P : Type} [LinearOrder P] [Zero P]

theorem consistent_empty : Consistent (empty : OrderBook P) where
  wf := wellFormed_empty
  ladder_indexed := by intro x hx; simp [all_nodes, orders_of, empty] at hx

theorem consistent_add {s : OrderBook P} (h : Consistent s) {id : Int}
    (hfresh : StdMap.find s.all_orders_ id = none) (p : P) (q : Nat) (b : Bool) :
    Consistent (add_order s id p q b) := by
  have hperm := all_nodes_perm_add s h.wf.sorted_bids h.wf.sorted_asks id p q b
  refine ⟨wellFormed_add h.wf id p q b, ?_⟩
  intro x hx
  rw [add_order_index, StdMap.find_assign StdMap.strictTotal_lt]
  rcases List.mem_cons.mp (hperm.mem_iff.mp hx) with hx | hx
  · subst hx; simp
  · have hold := h.ladder_indexed x hx
    have hne : x.2.2.order.id ≠ id := by
      intro e
      rw [e, hfresh] at hold
      cases hold
    rw [if_neg hne]
    exact hold

theorem consistent_cancel {s r : OrderBook P} (h : Consistent s) {id : Int}
    (hc : cancel_order s id = some r) : Consistent r := by
  refine ⟨wellFormed_cancel h.wf hc, ?_⟩
  cases hf : StdMap.find s.all_orders_ id with
  | none =>
    rw [cancel_order_absent s id hf] at hc
    cases hc
    exact h.ladder_indexed
  | some info =>
    obtain ⟨hidx, _, _, _, _, _⟩ := cancel_order_live hf hc
    obtain ⟨n, hn, hperm⟩ := all_nodes_perm_cancel h.wf.sorted_bids h.wf.sorted_asks hf hc
    have hnd : (((info.is_bid, info.price, n) :: all_nodes r).map (fun x => x.2.2.addr)).Nodup :=
      (hperm.map _).nodup_iff.mp h.wf.addr_nodup
    rw [List.map_cons, List.nodup_cons] at hnd
    intro x hx
    have hxs : x ∈ all_nodes s := hperm.mem_iff.mpr (List.mem_cons_of_mem _ hx)
    have hold := h.ladder_indexed x hxs
    rw [hidx, StdMap.find_erase]
    have hne : x.2.2.order.id ≠ id := by
      intro e
      rw [e, hf] at hold
      cases hold
      apply hnd.1
      simp only at hn
      rw [hn]
      exact List.mem_map.mpr ⟨x, hx, rfl⟩
    rw [if_neg hne]
    exact hold

theorem ReachableFresh.consistent {s : OrderBook P} (h : ReachableFresh s) : Consistent s := by
  induction h with
  | init => exact consistent_empty
  | add s id p q b _ hfresh ih => exact consistent_add ih hfresh p q b
  | cancel s r id _ hc ih => exact consistent_cancel ih hc

/-- With fresh ids no two orders of the ladder carry the same id. -/
theorem Consistent.ladder_ids_nodup {s : OrderBook P} (h : Consistent s) :
    (ladder_ids s).Nodup := by
  unfold ladder_ids
  refine List.Nodup.map_on ?_ (List.Nodup.of_map _ h.wf.addr_nodup)
  intro x hx y hy hxy
  have e1 := h.ladder_indexed x hx
  have e2 := h.ladder_indexed y hy
  simp only at hxy
  rw [hxy, e2] at e1
  simp only [Option.some.injEq, OrderInfo.mk.injEq] at e1
  exact h.wf.addr_inj hx hy e1.2.2.symm

/-- An id that is indexed is the id of an order of the ladder. -/
theorem WellFormed.index_subset {s : OrderBook P} (h : WellFormed s) {id : Int}
    (hid : id ∈ index_ids s) : id ∈ ladder_ids s := by
  obtain ⟨info, hf⟩ := StdMap.mem_keys_iff.mp hid
  obtain ⟨n, hn, _, e⟩ := h.index_sound id info hf
  exact List.mem_map.mpr ⟨_, hn, e⟩

theorem Consistent.ladder_subset {s : OrderBook P} (h : Consistent s) {id : Int}
    (hid : id ∈ ladder_ids s) : id ∈ index_ids s := by
  obtain ⟨x, hx, e⟩ := List.mem_map.mp hid
  exact StdMap.mem_keys_iff.mpr ⟨_, e ▸ h.ladder_indexed x hx⟩

/-- The order an index entry points to sits in the level at the recorded price on the
recorded side. -/
theorem WellFormed.index_level {s : OrderBook P} (h : WellFormed s) {id : Int}
    {info : OrderInfo P} (hf : StdMap.find s.all_orders_ id = some info) :
    ∃ lvl n, StdMap.find (side s info.is_bid) info.price = some lvl ∧ n ∈ lvl ∧
      n.order.id = id ∧ n.addr = info.position := by
  obtain ⟨n, hn, e1, e2⟩ := h.index_sound id info hf
  rw [mem_all_nodes, mem_orders_of] at hn
  obtain ⟨lvl, hl, hnl⟩ := hn
  refine ⟨lvl, n, ?_, hnl, e2, e1⟩
  cases hside : info.is_bid with
  | true =>
    rw [hside] at hl
    exact StdMap.find_of_mem StdMap.strictTotal_gt h.sorted_bids hl
  | false =>
    rw [hside] at hl
    exact StdMap.find_of_mem StdMap.strictTotal_lt h.sorted_asks hl

end FreshInvariant

/-- The first key of a sorted map comes before every other key. -/
theorem front_price_first {P : Type} [Zero P] {lt : P → P → Prop} {m : Ladder P}
    (hs : StdMap.Sorted lt m) (hne : m ≠ []) :
    front_price m ∈ StdMap.keys m ∧
      ∀ k ∈ StdMap.keys m, k = front_price m ∨ lt (front_price m) k := by
  cases m with
  | nil => exact absurd rfl hne
  | cons e rest =>
    obtain ⟨p, lvl⟩ := e
    rw [StdMap.Sorted, List.pairwise_cons] at hs
    refine ⟨by simp [front_price, StdMap.keys], ?_⟩
    intro k hk
    simp only [StdMap.keys, List.map_cons, List.mem_cons, List.mem_map] at hk
    rcases hk with hk | ⟨e, he, rfl⟩
    · exact Or.inl hk
    · exact Or.inr (hs.1 e he)

section LevelLemmas

variable {P : Type} [LinearOrder P]

theorem find_push_front_at {lt : P → P → Prop} [DecidableRel lt] (hlt : StrictTotal lt)
    (m : Ladder P) (p : P) (n : Node) (k : P) :
    StdMap.find (push_front_at lt m p n) k =
      if k = p then some (n :: (StdMap.find m p).getD []) else StdMap.find m k := by
  unfold push_front_at
  exact StdMap.find_assign hlt m p _ k

theorem list_erase_eq_erase {l : List Node} {pos : Nat} {r : List Node}
    (h : list_erase l pos = some r) :
    ∃ a n b, l = a ++ n :: b ∧ r = a ++ b ∧ n.addr = pos ∧ n ∈ l ∧ r = l.erase n := by
  obtain ⟨a, n, b, e1, e2, e3, e4⟩ := list_erase_some h
  refine ⟨a, n, b, e1, e2, e3, by simp [e1], ?_⟩
  have hna : n ∉ a := fun hn => e4 n hn e3
  rw [e1, e2, List.erase_append_right _ hna, List.erase_cons_head]

theorem find_erase_at {lt : P → P → Prop} [DecidableRel lt] (hlt : StrictTotal lt)
    {m : Ladder P} {p : P} {pos : Nat} {r : Ladder P} (h : erase_at lt m p pos = some r) :
    ∃ lvl rem, StdMap.find m p = some lvl ∧ list_erase lvl pos = some rem ∧
      ∀ k, StdMap.find r k =
        if k = p then (if rem = [] then none else some rem) else StdMap.find m k := by
  unfold erase_at at h
  cases hf : StdMap.find m p with
  | none => simp [hf] at h
  | some lvl =>
    simp only [hf] at h
    cases he : list_erase lvl pos with
    | none => simp [he] at h
    | some rem =>
      simp only [he] at h
      refine ⟨lvl, rem, rfl, he, fun k => ?_⟩
      cases rem with
      | nil =>
        simp only [List.isEmpty_nil, if_true, Option.some.injEq] at h
        subst h
        rw [StdMap.find_erase]
        simp
      | cons x xs =>
        simp only [List.isEmpty_cons, Bool.false_eq_true, if_false, Option.some.injEq] at h
        subst h
        rw [StdMap.find_assign hlt]
        simp

theorem mem_all_nodes_of_find {s : OrderBook P} {b : Bool} {p : P} {lvl : List Node}
    {n : Node} (hf : StdMap.find (side s b) p = some lvl) (hn : n ∈ lvl) :
    (b, p, n) ∈ all_nodes s :=
  mem_all_nodes.mpr (mem_orders_of.mpr ⟨lvl, StdMap.mem_of_find hf, hn⟩)

end LevelLemmas

section SideLemmas

variable {P : Type} [LinearOrder P] [Zero P]

theorem side_add_other (s : OrderBook P) (id : Int) (p : P) (q : Nat) (b : Bool) :
    side (add_order s id p q b) (!b) = side s (!b) := by
  cases b <;> rfl

theorem find_side_add (s : OrderBook P) (id : Int) (p : P) (q : Nat) (b : Bool) (k : P) :
    StdMap.find (side (add_order s id p q b) b) k =
      if k = p then
        some ({ addr := s.next_node, order := { id := id, quantity := q } } ::
          (StdMap.find (side s b) p).getD [])
      else StdMap.find (side s b) k := by
  cases b with
  | true => exact find_push_front_at StdMap.strictTotal_gt s.bids_ p _ k
  | false => exact find_push_front_at StdMap.strictTotal_lt s.asks_ p _ k

/-- What a `cancel_order` call on a live id does to the ladder: it unlinks from the level
at the recorded price one node, which carries the cancelled id. -/
theorem cancel_order_level {s r : OrderBook P} (hw : WellFormed s) {id : Int}
    {info : OrderInfo P} (hf : StdMap.find s.all_orders_ id = some info)
    (hc : cancel_order s id = some r) :
    ∃ a n b, StdMap.find (side s info.is_bid) info.price = some (a ++ n :: b) ∧
      n.addr = info.position ∧ n.order.id = id ∧ (a ++ n :: b).erase n = a ++ b ∧
      (∀ k, StdMap.find (side r info.is_bid) k =
        if k = info.price then (if a ++ b = [] then none else some (a ++ b))
        else StdMap.find (side s info.is_bid) k) ∧
      side r (!info.is_bid) = side s (!info.is_bid) := by
  obtain ⟨_, _, _, _, h1, h2⟩ := cancel_order_live hf hc
  have key : ∃ lvl rem, StdMap.find (side s info.is_bid) info.price = some lvl ∧
      list_erase lvl info.position = some rem ∧
      (∀ k, StdMap.find (side r info.is_bid) k =
        if k = info.price then (if rem = [] then none else some rem)
        else StdMap.find (side s info.is_bid) k) ∧
      side r (!info.is_bid) = side s (!info.is_bid) := by
    cases hside : info.is_bid with
    | true =>
      obtain ⟨he, ho⟩ := h1 hside
      obtain ⟨lvl, rem, f1, f2, f3⟩ := find_erase_at StdMap.strictTotal_gt he
      exact ⟨lvl, rem, f1, f2, f3, ho⟩
    | false =>
      obtain ⟨he, ho⟩ := h2 hside
      obtain ⟨lvl, rem, f1, f2, f3⟩ := find_erase_at StdMap.strictTotal_lt he
      exact ⟨lvl, rem, f1, f2, f3, ho⟩
  obtain ⟨lvl, rem, f1, f2, f3, f4⟩ := key
  obtain ⟨a, n, b, e1, e2, e3, e4, e5⟩ := list_erase_eq_erase f2
  obtain ⟨lvl0, n0, g1, g2, g3, g4⟩ := hw.index_level hf
  rw [f1] at g1
  cases g1
  have hn : (info.is_bid, info.price, n) ∈ all_nodes s := mem_all_nodes_of_find f1 e4
  have hn0 : (info.is_bid, info.price, n0) ∈ all_nodes s := mem_all_nodes_of_find f1 g2
  have heq := hw.addr_inj hn hn0 (by simp [e3, g4])
  have hnn : n = n0 := by
    have := congrArg (fun x : Bool × P × Node => x.2.2) heq
    simpa using this
  subst e1 e2
  exact ⟨a, n, b, f1, e3, hnn ▸ g3, e5.symm, f3, f4⟩

end SideLemmas

theorem not_sublist_swap {α : Type} {l : List α} (hnd : l.Nodup) {a b : α} (hab : a ≠ b)
    (h1 : [b, a].Sublist l) : ¬ [a, b].Sublist l := by
  induction l with
  | nil => cases h1
  | cons x l' ih =>
    rw [List.nodup_cons] at hnd
    intro h2
    cases h1 with
    | cons _ h1' =>
      cases h2 with
      | cons _ h2' => exact ih hnd.2 h1' h2'
      | cons₂ _ h2' => exact hnd.1 (h1'.subset (by simp))
    | cons₂ _ h1' =>
      cases h2 with
      | cons _ h2' => exact hnd.1 (h2'.subset (by simp))
      | cons₂ _ h2' => exact hab rfl

theorem level_sublist_all_nodes {P : Type} [LinearOrder P] {s : OrderBook P} {d : Bool} {p : P} {lvl : List Node}
    (hf : StdMap.find (side s d) p = some lvl) :
    (lvl.map (fun n => (d, p, n))).Sublist (all_nodes s) := by
  obtain ⟨l1, l2, e⟩ := List.append_of_mem (StdMap.mem_of_find hf)
  have ho : (lvl.map (fun n => (p, n))).Sublist (orders_of (side s d)) := by
    rw [e, orders_of_append, orders_of_cons]
    exact (List.sublist_append_left _ _).trans (List.sublist_append_right _ _)
  cases d with
  | true =>
    have := ho.map (fun x : P × Node => (true, x.1, x.2))
    simp only [List.map_map] at this
    exact this.trans (List.sublist_append_left _ _)
  | false =>
    have := ho.map (fun x : P × Node => (false, x.1, x.2))
    simp only [List.map_map] at this
    exact this.trans (List.sublist_append_right _ _)

section PathLemmas

variable {P : Type} [LinearOrder P] [Zero P]

theorem FreshPath.reachableFresh {keep : List Int} {s r : OrderBook P}
    (hp : FreshPath keep s r) (h : ReachableFresh s) : ReachableFresh r := by
  induction hp with
  | refl => exact h
  | add r id p q b _ hfresh ih => exact ReachableFresh.add r id p q b ih hfresh
  | cancel r t id _ _ hc ih => exact ReachableFresh.cancel r t id ih hc

/-- A level lookup after `add_order`, for either side. -/
theorem find_side_add_any (s : OrderBook P) (id : Int) (p : P) (q : Nat) (b d : Bool)
    (k : P) :
    StdMap.find (side (add_order s id p q b) d) k =
      if d = b ∧ k = p then
        some ({ addr := s.next_node, order := { id := id, quantity := q } } ::
          (StdMap.find (side s b) p).getD [])
      else StdMap.find (side s d) k := by
  by_cases hd : d = b
  · subst hd
    rw [find_side_add]
    by_cases hk : k = p
    · simp [hk]
    · simp [hk]
  · have hd' : d = !b := by cases d <;> cases b <;> simp_all
    rw [hd', side_add_other]
    simp

theorem sublist_preserved_add (s : OrderBook P) (id : Int) (p' : P) (q : Nat) (b d : Bool)
    (p : P) {w lvl : List Node} (hf : StdMap.find (side s d) p = some lvl)
    (hw : w.Sublist lvl) :
    ∃ lvl', StdMap.find (side (add_order s id p' q b) d) p = some lvl' ∧ w.Sublist lvl' := by
  rw [find_side_add_any]
  by_cases hc : d = b ∧ p = p'
  · obtain ⟨rfl, rfl⟩ := hc
    rw [if_pos ⟨rfl, rfl⟩, hf]
    exact ⟨_, rfl, List.Sublist.cons _ hw⟩
  · rw [if_neg hc]
    exact ⟨lvl, hf, hw⟩

theorem sublist_preserved_cancel {s r : OrderBook P} (hwf : WellFormed s) {id : Int}
    (hc : cancel_order s id = some r) (d : Bool) (p : P) {w lvl : List Node}
    (hid : ∀ n ∈ w, n.order.id ≠ id) (hne : w ≠ [])
    (hf : StdMap.find (side s d) p = some lvl) (hw : w.Sublist lvl) :
    ∃ lvl', StdMap.find (side r d) p = some lvl' ∧ w.Sublist lvl' := by
  cases hfi : StdMap.find s.all_orders_ id with
  | none =>
    rw [cancel_order_absent s id hfi] at hc
    cases hc
    exact ⟨lvl, hf, hw⟩
  | some info =>
    obtain ⟨a, n, b, e1, _, e3, e4, e5, e6⟩ := cancel_order_level hwf hfi hc
    by_cases hd : d = info.is_bid
    · subst hd
      rw [e5]
      by_cases hp : p = info.price
      · subst hp
        rw [e1] at hf
        cases hf
        have hn : n ∉ w := fun hn => hid n hn e3
        have hsub : w.Sublist (a ++ b) := by
          have := List.Sublist.erase n hw
          rwa [List.erase_of_not_mem hn, e4] at this
        have hab : a ++ b ≠ [] := by
          intro h0
          rw [h0] at hsub
          exact hne (List.eq_nil_of_sublist_nil hsub)
        rw [if_pos rfl, if_neg hab]
        exact ⟨_, rfl, hsub⟩
      · rw [if_neg hp]
        exact ⟨lvl, hf, hw⟩
    · have hd' : d = !info.is_bid := by cases d <;> cases h : info.is_bid <;> simp_all
      rw [hd', e6, ← hd']
      exact ⟨lvl, hf, hw⟩

/-- Orders that are not cancelled keep their relative order in their level. -/
theorem FreshPath.sublist_preserved {keep : List Int} {s r : OrderBook P}
    (hp : FreshPath keep s r) (hs : ReachableFresh s) (d : Bool) (p : P)
    {w : List Node} (hkeep : ∀ n ∈ w, n.order.id ∈ keep) (hne : w ≠ [])
    (h : ∃ lvl, StdMap.find (side s d) p = some lvl ∧ w.Sublist lvl) :
    ∃ lvl, StdMap.find (side r d) p = some lvl ∧ w.Sublist lvl := by
  induction hp with
  | refl => exact h
  | add r id p' q b _ _ ih =>
    obtain ⟨lvl, hf, hw⟩ := ih
    exact sublist_preserved_add r id p' q b d p hf hw
  | cancel r t id hpath hnot hc ih =>
    obtain ⟨lvl, hf, hw⟩ := ih
    have hwf := (hpath.reachableFresh hs).consistent.wf
    refine sublist_preserved_cancel hwf hc d p ?_ hne hf hw
    intro n hn e
    exact hnot (e ▸ hkeep n hn)

theorem Consistent.level_ids_nodup {s : OrderBook P} (h : Consistent s) {d : Bool} {p : P}
    {lvl : List Node} (hf : StdMap.find (side s d) p = some lvl) : (level_ids lvl).Nodup := by
  have hsub := (level_sublist_all_nodes hf).map (fun x : Bool × P × Node => x.2.2.order.id)
  simp only [List.map_map] at hsub
  exact List.Nodup.sublist hsub h.ladder_ids_nodup

end PathLemmas

section BulkLemmas

variable {P : Type} [LinearOrder P] [Zero P]

theorem best_eq_front_price {s : OrderBook P} (h : WellFormed s) (d : Bool) :
    best s d = front_price (side s d) := by
  cases d
  · simpa [best, side, get_best_bid_ask] using h.best_ask_eq
  · simpa [best, side, get_best_bid_ask] using h.best_bid_eq

theorem WellFormed.sorted_side {s : OrderBook P} (h : WellFormed s) (d : Bool) :
    ∃ lt : P → P → Prop, StdMap.Sorted lt (side s d) ∧
      ∀ a b, lt a b → if d then b < a else a < b := by
  cases d
  · exact ⟨_, h.sorted_asks, fun _ _ hab => hab⟩
  · exact ⟨_, h.sorted_bids, fun _ _ hab => hab⟩

theorem WellFormed.nonempty_side {s : OrderBook P} (h : WellFormed s) (d : Bool) :
    ∀ e ∈ side s d, e.2 ≠ [] := by
  cases d
  · exact h.nonempty_asks
  · exact h.nonempty_bids

theorem keys_side_add (s : OrderBook P) (id : Int) (p : P) (q : Nat) (b : Bool) (k : P) :
    k ∈ StdMap.keys (side (add_order s id p q b) b) ↔ k = p ∨ k ∈ StdMap.keys (side s b) := by
  rw [StdMap.mem_keys_iff, StdMap.mem_keys_iff]
  simp only [find_side_add]
  by_cases hk : k = p
  · simp [hk]
  · simp [hk]

theorem keys_add_all (b : Bool) (os : List (Int × P × Nat)) (s : OrderBook P) (k : P) :
    k ∈ StdMap.keys (side (add_all s b os) b) ↔
      k ∈ StdMap.keys (side s b) ∨ k ∈ os.map (fun o => o.2.1) := by
  induction os generalizing s with
  | nil => simp [add_all]
  | cons o rest ih =>
    obtain ⟨id, p, q⟩ := o
    simp only [add_all, List.map_cons, List.mem_cons]
    rw [ih, keys_side_add]
    constructor
    · rintro ((h | h) | h)
      · exact Or.inr (Or.inl h)
      · exact Or.inl h
      · exact Or.inr (Or.inr h)
    · rintro (h | h | h)
      · exact Or.inl (Or.inr h)
      · exact Or.inl (Or.inl h)
      · exact Or.inr h

theorem reachable_add_all (b : Bool) (os : List (Int × P × Nat)) (s : OrderBook P)
    (h : Reachable s) : Reachable (add_all s b os) := by
  induction os generalizing s with
  | nil => exact h
  | cons o rest ih =>
    obtain ⟨id, p, q⟩ := o
    exact ih _ (Reachable.add s id p q b h)

/-- After inserts on one side of the empty book the best price of that side is one of
the inserted prices and no inserted price is better. -/
theorem best_after_add_all (b : Bool) (os : List (Int × P × Nat)) (hN : 1 ≤ os.length) :
    best (add_all (empty : OrderBook P) b os) b ∈ os.map (fun o => o.2.1) ∧
    ∀ p ∈ os.map (fun o => o.2.1),
      p = best (add_all (empty : OrderBook P) b os) b ∨
        if b then p < best (add_all (empty : OrderBook P) b os) b
        else best (add_all (empty : OrderBook P) b os) b < p := by
  have hw := (reachable_add_all b os empty Reachable.init).wellFormed
  have hkeys : ∀ k, k ∈ StdMap.keys (side (add_all (empty : OrderBook P) b os) b) ↔
      k ∈ os.map (fun o => o.2.1) := by
    intro k
    rw [keys_add_all]
    cases b <;> simp [side, empty, StdMap.keys]
  have hne : side (add_all (empty : OrderBook P) b os) b ≠ [] := by
    cases os with
    | nil => simp at hN
    | cons o rest =>
      intro h0
      have := (hkeys o.2.1).mpr (by simp)
      rw [h0] at this
      simp [StdMap.keys] at this
  obtain ⟨lt, hs, hlt⟩ := hw.sorted_side b
  obtain ⟨h1, h2⟩ := front_price_first hs hne
  rw [best_eq_front_price hw]
  refine ⟨(hkeys _).mp h1, fun p hp => ?_⟩
  rcases h2 p ((hkeys p).mpr hp) with e | e
  · exact Or.inl e
  · exact Or.inr (hlt _ _ e)

theorem cancel_all_spec (d : Bool) (ids : List Int) (s : OrderBook P) (h : Consistent s)
    (hside : ∀ id ∈ ids, ∀ info, StdMap.find s.all_orders_ id = some info → info.is_bid = d) :
    ∃ r, cancel_all s ids = some r ∧ Consistent r ∧ side r (!d) = side s (!d) ∧
      ∀ id, StdMap.find r.all_orders_ id =
        if id ∈ ids then none else StdMap.find s.all_orders_ id := by
  induction ids generalizing s with
  | nil => exact ⟨s, rfl, h, rfl, fun id => by simp⟩
  | cons id rest ih =>
    obtain ⟨r1, hr1⟩ := cancel_order_total h.wf id
    have hc1 := consistent_cancel h hr1
    simp only [cancel_all, hr1]
    cases hf : StdMap.find s.all_orders_ id with
    | none =>
      rw [cancel_order_absent s id hf] at hr1
      cases hr1
      obtain ⟨r, e1, e2, e3, e4⟩ := ih s h (fun i hi => hside i (List.mem_cons_of_mem _ hi))
      refine ⟨r, e1, e2, e3, fun i => ?_⟩
      rw [e4]
      by_cases hi : i = id
      · subst hi; simp [hf]
      · simp [hi]
    | some info =>
      have hd : info.is_bid = d := hside id (List.mem_cons_self _ _) info hf
      obtain ⟨hidx, _⟩ := cancel_order_live hf hr1
      obtain ⟨_, _, _, _, _, _, _, _, hother⟩ := cancel_order_level h.wf hf hr1
      rw [hd] at hother
      have hside1 : ∀ i ∈ rest, ∀ info', StdMap.find r1.all_orders_ i = some info' →
          info'.is_bid = d := by
        intro i hi info' hfi
        rw [hidx, StdMap.find_erase] at hfi
        by_cases he : i = id
        · rw [if_pos he] at hfi; cases hfi
        · rw [if_neg he] at hfi
          exact hside i (List.mem_cons_of_mem _ hi) info' hfi
      obtain ⟨r, e1, e2, e3, e4⟩ := ih r1 hc1 hside1
      refine ⟨r, e1, e2, e3.trans hother, fun i => ?_⟩
      rw [e4, hidx, StdMap.find_erase]
      by_cases hi : i = id
      · subst hi; simp
      · simp [hi]

end BulkLemmas

section SampleIds

/-- The ids live on the bid side of the sample book are 3 and 1. -/
theorem sample_book_bid_ids (id : Int) :
    id ∈ [(3 : Int), 1] ↔
      ∃ info, StdMap.find sample_book.all_orders_ id = some info ∧ info.is_bid = true := by
  have e : sample_book.all_orders_ =
      [(1, { price := 99, is_bid := true, position := 0 }),
       (2, { price := 101, is_bid := false, position := 1 }),
       (3, { price := 99, is_bid := true, position := 2 })] := by decide
  rw [e]
  constructor
  · intro hid
    simp only [List.mem_cons, List.mem_singleton, List.not_mem_nil, or_false] at hid
    rcases hid with rfl | rfl
    · exact ⟨_, rfl, rfl⟩
    · exact ⟨_, rfl, rfl⟩
  · rintro ⟨info, hf, hd⟩
    by_cases h1 : (1 : Int) = id
    · simp [← h1]
    · by_cases h3 : (3 : Int) = id
      · simp [← h3]
      · by_cases h2 : (2 : Int) = id
        · subst h2
          simp only [StdMap.find] at hf
          simp at hf
          subst hf
          cases hd
        · simp [StdMap.find, h1, h2, h3] at hf

end SampleIds

section Samples

theorem sample_book_fresh : ReachableFresh sample_book :=
  ReachableFresh.add _ 3 99 7 true
    (ReachableFresh.add _ 2 101 5 false
      (ReachableFresh.add _ 1 99 10 true ReachableFresh.init (by decide)) (by decide))
    (by decide)

end Samples

namespace StdMap

variable {K V : Type}

theorem find_none_of_sorted_cons [DecidableEq K] {lt : K → K → Prop} (hlt : StrictTotal lt)
    {k0 : K} {v0 : V} {rest : List (K × V)} (hs : Sorted lt ((k0, v0) :: rest)) {k : K}
    (hk : k = k0 ∨ lt k k0) : find rest k = none := by
  rw [Sorted, List.pairwise_cons] at hs
  rw [find_eq_none]
  intro hmem
  obtain ⟨e, he, rfl⟩ := List.mem_map.mp hmem
  have h1 := hs.1 e he
  rcases hk with hk | hk
  · exact hlt.irrefl k0 (by simpa [hk] using h1)
  · exact hlt.irrefl _ (hlt.trans _ _ _ hk h1)

/-- Two sorted maps with the same lookups are the same list. -/
theorem sorted_ext [DecidableEq K] {lt : K → K → Prop} (hlt : StrictTotal lt)
    {m1 m2 : List (K × V)} (h1 : Sorted lt m1) (h2 : Sorted lt m2)
    (h : ∀ k, find m1 k = find m2 k) : m1 = m2 := by
  induction m1 generalizing m2 with
  | nil =>
    cases m2 with
    | nil => rfl
    | cons e rest =>
      have := h e.1
      simp [find] at this
  | cons e1 r1 ih =>
    obtain ⟨k1, v1⟩ := e1
    cases m2 with
    | nil =>
      have := h k1
      simp [find] at this
    | cons e2 r2 =>
      obtain ⟨k2, v2⟩ := e2
      have hk : k1 = k2 := by
        rcases hlt.total k1 k2 with hl | he | hg
        · have hn := find_none_of_sorted_cons hlt h2 (Or.inr hl)
          have hne : ¬ k2 = k1 := fun e => hlt.irrefl k1 (by simpa [e] using hl)
          have := h k1
          simp [find, hne, hn] at this
        · exact he
        · have hn := find_none_of_sorted_cons hlt h1 (Or.inr hg)
          have hne : ¬ k1 = k2 := fun e => hlt.irrefl k2 (by simpa [e] using hg)
          have := h k2
          simp [find, hne, hn] at this
      subst hk
      have hv : v1 = v2 := by
        have := h k1
        simpa [find] using this
      subst hv
      have hrest : ∀ k, find r1 k = find r2 k := by
        intro k
        by_cases hkk : k = k1
        · rw [find_none_of_sorted_cons hlt h1 (Or.inl hkk),
            find_none_of_sorted_cons hlt h2 (Or.inl hkk)]
        · have hne : ¬ k1 = k := fun e => hkk e.symm
          have := h k
          simpa [find, hne] using this
      rw [Sorted, List.pairwise_cons] at h1 h2
      rw [ih h1.2 h2.2 hrest]

theorem erase_assign_same [DecidableEq K] {lt : K → K → Prop} [DecidableRel lt]
    (hlt : StrictTotal lt) (m : List (K × V)) (k : K) (v : V) :
    erase (assign lt m k v) k = erase m k := by
  induction m with
  | nil => simp [assign, erase]
  | cons e rest ih =>
    obtain ⟨k0, v0⟩ := e
    unfold assign
    split_ifs with h1 h2
    · rw [erase_cons, if_pos rfl]
    · have hne : k0 ≠ k := fun e => hlt.irrefl k (e ▸ h2)
      rw [erase_cons, if_neg hne, erase_cons, if_neg hne, ih]
    · have he : k0 = k := by
        rcases hlt.total k k0 with h | h | h
        · exact absurd h h1
        · exact h.symm
        · exact absurd h h2
      rw [erase_cons, if_pos he, erase_cons, if_pos he]

end StdMap

section UndoLemmas

variable {P : Type} [LinearOrder P]

/-- Unlinking the node that was just pushed gives the ladder back. -/
theorem erase_at_push_front_at {lt : P → P → Prop} [DecidableRel lt] (hlt : StrictTotal lt)
    {m : Ladder P} (hs : StdMap.Sorted lt m) (hne : ∀ e ∈ m, e.2 ≠ []) (p : P) (n : Node) :
    erase_at lt (push_front_at lt m p n) p n.addr = some m := by
  unfold erase_at
  rw [find_push_front_at hlt, if_pos rfl]
  simp only [list_erase, if_true]
  have hs' : StdMap.Sorted lt (push_front_at lt m p n) := StdMap.sorted_assign hlt hs _ _
  cases hf : StdMap.find m p with
  | none =>
    simp only [Option.getD_none, List.isEmpty_nil, if_true, Option.some.injEq]
    apply StdMap.sorted_ext hlt (StdMap.sorted_erase hs' _) hs
    intro k
    rw [StdMap.find_erase, find_push_front_at hlt]
    by_cases hk : k = p
    · rw [if_pos hk, hk, hf]
    · rw [if_neg hk, if_neg hk]
  | some old =>
    have hold : old ≠ [] := hne _ (StdMap.mem_of_find hf)
    have hemp : old.isEmpty = false := by
      cases old with
      | nil => exact absurd rfl hold
      | cons _ _ => rfl
    simp only [Option.getD_some, hemp, Bool.false_eq_true, if_false, Option.some.injEq]
    apply StdMap.sorted_ext hlt (StdMap.sorted_assign hlt hs' _ _) hs
    intro k
    rw [StdMap.find_assign hlt, find_push_front_at hlt]
    by_cases hk : k = p
    · rw [if_pos hk, hk, hf]
    · rw [if_neg hk, if_neg hk]

end UndoLemmas

section UndoState

variable {P : Type} [LinearOrder P] [Zero P]

/-- `add_order` followed by `cancel_order` of the same id: the call returns, the ladder
and the published prices are what they were before the insert, and the index is the
earlier index without the id. -/
theorem cancel_after_add {s : OrderBook P} (hw : WellFormed s) (id : Int) (p : P) (q : Nat)
    (b : Bool) :
    ∃ r, cancel_order (add_order s id p q b) id = some r ∧
      r.bids_ = s.bids_ ∧ r.asks_ = s.asks_ ∧
      r.all_orders_ = StdMap.erase s.all_orders_ id ∧
      r.best_bid_ = s.best_bid_ ∧ r.best_ask_ = s.best_ask_ := by
  have hfind : StdMap.find (add_order s id p q b).all_orders_ id =
      some { price := p, is_bid := b, position := s.next_node } := by
    rw [add_order_index, StdMap.find_assign StdMap.strictTotal_lt, if_pos rfl]
  obtain ⟨hs1, hs2, hs3, hs4⟩ := add_order_side s id p q
  unfold cancel_order
  simp only [hfind]
  cases b with
  | true =>
    have he := erase_at_push_front_at StdMap.strictTotal_gt hw.sorted_bids hw.nonempty_bids p
      { addr := s.next_node, order := { id := id, quantity := q } }
    simp only at he
    simp only [if_true, hs1, he]
    refine ⟨_, rfl, rfl, hs2, ?_, ?_, ?_⟩
    · simp only [update_best_prices, add_order_index]
      exact StdMap.erase_assign_same StdMap.strictTotal_lt _ _ _
    · simp only [update_best_prices]
      exact hw.best_bid_eq.symm
    · simp only [update_best_prices, hs2]
      exact hw.best_ask_eq.symm
  | false =>
    have he := erase_at_push_front_at StdMap.strictTotal_lt hw.sorted_asks hw.nonempty_asks p
      { addr := s.next_node, order := { id := id, quantity := q } }
    simp only at he
    simp only [Bool.false_eq_true, if_false, hs3, he]
    refine ⟨_, rfl, hs4, rfl, ?_, ?_, ?_⟩
    · simp only [update_best_prices, add_order_index]
      exact StdMap.erase_assign_same StdMap.strictTotal_lt _ _ _
    · simp only [update_best_prices, hs4]
      exact hw.best_bid_eq.symm
    · simp only [update_best_prices]
      exact hw.best_ask_eq.symm

end UndoState

theorem orders_of_eq_nil {P : Type} {m : Ladder P} (hne : ∀ e ∈ m, e.2 ≠ []) :
    orders_of m = [] ↔ m = [] := by
  constructor
  · intro h
    cases m with
    | nil => rfl
    | cons e rest =>
      exfalso
      have := hne e (List.mem_cons_self _ _)
      rw [orders_of, List.flatMap_cons, List.append_eq_nil] at h
      exact this (List.map_eq_nil_iff.mp h.1)
  · intro h
    rw [h]
    rfl

section PositiveLemmas

variable {P : Type} [LinearOrder P] [Zero P]

theorem ReachablePositive.to_reachable {s : OrderBook P} (h : ReachablePositive s) :
    Reachable s := by
  induction h with
  | init => exact Reachable.init
  | add s id p q b _ _ ih => exact Reachable.add s id p q b ih
  | cancel s r id _ hc ih => exact Reachable.cancel s r id ih hc

/-- A cancel creates no price level. -/
theorem keys_side_cancel {s r : OrderBook P} (hw : WellFormed s) {id : Int}
    (hc : cancel_order s id = some r) (d : Bool) {k : P}
    (hk : k ∈ StdMap.keys (side r d)) : k ∈ StdMap.keys (side s d) := by
  cases hf : StdMap.find s.all_orders_ id with
  | none =>
    rw [cancel_order_absent s id hf] at hc
    cases hc
    exact hk
  | some info =>
    obtain ⟨a, n, b, e1, _, _, _, e5, e6⟩ := cancel_order_level hw hf hc
    by_cases hd : d = info.is_bid
    · subst hd
      rw [StdMap.mem_keys_iff] at hk ⊢
      obtain ⟨v, hv⟩ := hk
      rw [e5] at hv
      by_cases hp : k = info.price
      · exact ⟨_, hp ▸ e1⟩
      · rw [if_neg hp] at hv
        exact ⟨v, hv⟩
    · have hd' : d = !info.is_bid := by cases d <;> cases h : info.is_bid <;> simp_all
      rw [hd', e6, ← hd'] at hk
      exact hk

theorem ReachablePositive.keys_pos {s : OrderBook P} (h : ReachablePositive s) (d : Bool) :
    ∀ k ∈ StdMap.keys (side s d), 0 < k := by
  induction h with
  | init => intro k hk; cases d <;> simp [side, empty, StdMap.keys] at hk
  | add s id p q b hs hp ih =>
    intro k hk
    by_cases hd : d = b
    · subst hd
      rcases (keys_side_add s id p q d k).mp hk with h | h
      · exact h ▸ hp
      · exact ih k h
    · have hd' : d = !b := by cases d <;> cases b <;> simp_all
      rw [hd', side_add_other, ← hd'] at hk
      exact ih k hk
  | cancel s r id hs hc ih =>
    intro k hk
    exact ih k (keys_side_cancel hs.to_reachable.wellFormed hc d hk)

/-- With positive prices the best price of a side is 0 exactly when the side is empty. -/
theorem best_zero_iff {s : OrderBook P} (h : ReachablePositive s) (d : Bool) :
    best s d = 0 ↔ orders_of (side s d) = [] := by
  have hw := h.to_reachable.wellFormed
  rw [best_eq_front_price hw, orders_of_eq_nil (hw.nonempty_side d)]
  constructor
  · intro h0
    by_contra hne
    obtain ⟨lt, hs, _⟩ := hw.sorted_side d
    have hpos := h.keys_pos d _ (front_price_first hs hne).1
    rw [h0] at hpos
    exact lt_irrefl _ hpos
  · intro he
    rw [he]
    rfl

end PositiveLemmas

section SortedKeys

variable {K V : Type}

theorem pairwise_keys {lt : K → K → Prop} {m : List (K × V)} (hs : StdMap.Sorted lt m) :
    (StdMap.keys m).Pairwise lt := by
  unfold StdMap.keys
  rw [List.pairwise_map]
  exact hs

end SortedKeys

section OrphanLemmas

variable {P : Type} [LinearOrder P] [Zero P]

theorem Steps.preserves_wellFormed {s r : OrderBook P} (hs : Steps s r) (hw : WellFormed s) :
    WellFormed r := by
  induction hs with
  | refl => exact hw
  | add r id p q b _ ih => exact wellFormed_add ih id p q b
  | cancel r t id _ hc ih => exact wellFormed_cancel ih hc

/-- An order of the ladder whose address no index entry records stays in the ladder,
at its place, whatever calls follow. -/
theorem Steps.orphan_stays {s r : OrderBook P} (hs : Steps s r) (hw : WellFormed s)
    {x : Bool × P × Node} (hmem : x ∈ all_nodes s)
    (hno : ∀ id info, StdMap.find s.all_orders_ id = some info →
      info.position ≠ x.2.2.addr) :
    x ∈ all_nodes r ∧
      ∀ id info, StdMap.find r.all_orders_ id = some info → info.position ≠ x.2.2.addr := by
  induction hs with
  | refl => exact ⟨hmem, hno⟩
  | add r id p q b hsteps ih =>
    obtain ⟨h1, h2⟩ := ih
    have hwr := hsteps.preserves_wellFormed hw
    have hperm := all_nodes_perm_add r hwr.sorted_bids hwr.sorted_asks id p q b
    refine ⟨hperm.mem_iff.mpr (List.mem_cons_of_mem _ h1), ?_⟩
    intro id' info hf
    rw [add_order_index, StdMap.find_assign StdMap.strictTotal_lt] at hf
    by_cases hid : id' = id
    · rw [if_pos hid] at hf
      cases hf
      exact Nat.ne_of_gt (hwr.addr_lt x h1)
    · rw [if_neg hid] at hf
      exact h2 id' info hf
  | cancel r t id hsteps hc ih =>
    obtain ⟨h1, h2⟩ := ih
    have hwr := hsteps.preserves_wellFormed hw
    cases hf : StdMap.find r.all_orders_ id with
    | none =>
      rw [cancel_order_absent r id hf] at hc
      cases hc
      exact ⟨h1, h2⟩
    | some info =>
      obtain ⟨hidx, _⟩ := cancel_order_live hf hc
      obtain ⟨n, hn, hperm⟩ := all_nodes_perm_cancel hwr.sorted_bids hwr.sorted_asks hf hc
      refine ⟨?_, ?_⟩
      · rcases List.mem_cons.mp (hperm.mem_iff.mp h1) with hx | hx
        · exfalso
          apply h2 id info hf
          rw [hx]
          exact hn.symm
        · exact hx
      · intro id' info' hf'
        rw [hidx, StdMap.find_erase] at hf'
        by_cases hid : id' = id
        · rw [if_pos hid] at hf'; cases hf'
        · rw [if_neg hid] at hf'
          exact h2 id' info' hf'

end OrphanLemmas

section TimeLemmas

variable {P : Type} [LinearOrder P] [Zero P]

/-- In every reachable state each level's list has strictly decreasing addresses. -/
theorem Reachable.levels_decreasing {s : OrderBook P} (h : Reachable s) :
    ∀ d p lvl, StdMap.find (side s d) p = some lvl →
      lvl.Pairwise (fun a b => a.addr > b.addr) := by
  induction h with
  | init =>
    intro d p lvl hf
    cases d <;> simp [side, empty, StdMap.find] at hf
  | add s id p' q b hs ih =>
    intro d p lvl hf
    rw [find_side_add_any] at hf
    by_cases hc : d = b ∧ p = p'
    · obtain ⟨rfl, rfl⟩ := hc
      rw [if_pos ⟨rfl, rfl⟩] at hf
      cases hf
      rw [List.pairwise_cons]
      cases hold : StdMap.find (side s d) p with
      | none => simp
      | some old =>
        simp only [Option.getD_some]
        refine ⟨fun x hx => ?_, ih d p old hold⟩
        exact hs.wellFormed.addr_lt _ (mem_all_nodes_of_find hold hx)
    · rw [if_neg hc] at hf
      exact ih d p lvl hf
  | cancel s r id hs hc ih =>
    intro d p lvl hf
    cases hfi : StdMap.find s.all_orders_ id with
    | none =>
      rw [cancel_order_absent s id hfi] at hc
      cases hc
      exact ih d p lvl hf
    | some info =>
      obtain ⟨a, n, b, e1, _, _, _, e5, e6⟩ := cancel_order_level hs.wellFormed hfi hc
      by_cases hd : d = info.is_bid
      · subst hd
        rw [e5] at hf
        by_cases hp : p = info.price
        · subst hp
          rw [if_pos rfl] at hf
          split_ifs at hf
          cases hf
          have hsub : (a ++ b).Sublist (a ++ n :: b) :=
            List.Sublist.append (List.Sublist.refl a) (List.Sublist.cons n (List.Sublist.refl b))
          exact List.Pairwise.sublist hsub (ih _ _ _ e1)
        · rw [if_neg hp] at hf
          exact ih _ p lvl hf
      · have hd' : d = !info.is_bid := by cases d <;> cases h : info.is_bid <;> simp_all
        rw [hd', e6, ← hd'] at hf
        exact ih d p lvl hf

end TimeLemmas

/-- In a list of strictly decreasing addresses, one node is met before another exactly
when its address is the greater. -/
theorem sublist_pair_iff {l : List Node} (hl : l.Pairwise (fun a b => a.addr > b.addr))
    {n1 n2 : Node} (h1 : n1 ∈ l) (h2 : n2 ∈ l) :
    [n1, n2].Sublist l ↔ n1.addr > n2.addr := by
  constructor
  · intro hsub
    have := List.Pairwise.sublist hsub hl
    simpa using this
  · intro hgt
    induction l with
    | nil => cases h1
    | cons x rest ih =>
      rw [List.pairwise_cons] at hl
      rcases List.mem_cons.mp h1 with e1 | e1
      · subst e1
        rcases List.mem_cons.mp h2 with e2 | e2
        · subst e2; exact absurd hgt (lt_irrefl _)
        · exact List.cons_sublist_cons.mpr (List.singleton_sublist.mpr e2)
      · rcases List.mem_cons.mp h2 with e2 | e2
        · subst e2
          exact absurd (hl.1 n1 e1) (Nat.lt_asymm hgt)
        · exact List.Sublist.cons x (ih hl.2 e1 e2)

section DumpLemmas

variable {P : Type}

theorem order_lines_append (a b : List (Line P)) :
    order_lines (a ++ b) = order_lines a ++ order_lines b := by
  induction a with
  | nil => rfl
  | cons x rest ih =>
    cases x <;> simp [order_lines, ih]

theorem order_lines_asks (m : Ladder P) :
    order_lines (m.flatMap
      (fun e => e.2.map (fun order => Line.ask e.1 order.order.quantity order.order.id))) =
    ((orders_of m).map (fun x => (false, x.1, x.2))).map line_of := by
  induction m with
  | nil => rfl
  | cons e rest ih =>
    obtain ⟨p, lvl⟩ := e
    rw [List.flatMap_cons, order_lines_append, ih, orders_of_cons, List.map_append,
      List.map_append]
    congr 1
    induction lvl with
    | nil => rfl
    | cons n ns ihn => simp [order_lines, line_of, ihn]

theorem order_lines_bids (m : Ladder P) :
    order_lines (m.flatMap
      (fun e => e.2.map (fun order => Line.bid e.1 order.order.quantity order.order.id))) =
    ((orders_of m).map (fun x => (true, x.1, x.2))).map line_of := by
  induction m with
  | nil => rfl
  | cons e rest ih =>
    obtain ⟨p, lvl⟩ := e
    rw [List.flatMap_cons, order_lines_append, ih, orders_of_cons, List.map_append,
      List.map_append]
    congr 1
    induction lvl with
    | nil => rfl
    | cons n ns ihn => simp [order_lines, line_of, ihn]

/-- The order lines of a dump: the asks from the last level of `asks_` to the first,
then the bids from the first level of `bids_` to the last. -/
theorem order_lines_print_book (s : OrderBook P) :
    order_lines (print_book s) =
      ((orders_of s.asks_.reverse).map (fun x => (false, x.1, x.2))).map line_of ++
      ((orders_of s.bids_).map (fun x => (true, x.1, x.2))).map line_of := by
  have hasks : order_lines (if s.asks_.isEmpty then [Line.text "empty"]
      else s.asks_.reverse.flatMap
        (fun e => e.2.map (fun order => Line.ask e.1 order.order.quantity order.order.id))) =
      ((orders_of s.asks_.reverse).map (fun x => (false, x.1, x.2))).map line_of := by
    cases hm : s.asks_ with
    | nil => rfl
    | cons e rest =>
      simp only [List.isEmpty_cons, Bool.false_eq_true, if_false]
      exact order_lines_asks _
  have hbids : order_lines (if s.bids_.isEmpty then [Line.text "empty"]
      else s.bids_.flatMap
        (fun e => e.2.map (fun order => Line.bid e.1 order.order.quantity order.order.id))) =
      ((orders_of s.bids_).map (fun x => (true, x.1, x.2))).map line_of := by
    cases hm : s.bids_ with
    | nil => rfl
    | cons e rest =>
      simp only [List.isEmpty_cons, Bool.false_eq_true, if_false]
      exact order_lines_bids _
  unfold print_book
  rw [order_lines_append, order_lines_append, order_lines_append, order_lines_append, hasks,
    hbids]
  simp [order_lines]

theorem orders_of_reverse_perm (m : Ladder P) : (orders_of m.reverse).Perm (orders_of m) := by
  unfold orders_of
  exact List.Perm.flatMap_right _ (List.reverse_perm m)

theorem line_prices_print_book (s : OrderBook P) :
    line_prices false (print_book s) = (orders_of s.asks_.reverse).map Prod.fst ∧
    line_prices true (print_book s) = (orders_of s.bids_).map Prod.fst := by
  unfold line_prices
  rw [order_lines_print_book, List.filter_append, List.filter_append]
  constructor
  · have h1 : (((orders_of s.asks_.reverse).map (fun x => (false, x.1, x.2))).map
        (@line_of P)).filter (fun x => x.1 == false) =
        ((orders_of s.asks_.reverse).map (fun x => (false, x.1, x.2))).map line_of := by
      rw [List.filter_eq_self]
      intro a ha
      simp only [List.mem_map] at ha
      obtain ⟨_, ⟨_, _, rfl⟩, rfl⟩ := ha
      rfl
    have h2 : (((orders_of s.bids_).map (fun x => (true, x.1, x.2))).map
        (@line_of P)).filter (fun x => x.1 == false) = [] := by
      rw [List.filter_eq_nil_iff]
      intro a ha
      simp only [List.mem_map] at ha
      obtain ⟨_, ⟨_, _, rfl⟩, rfl⟩ := ha
      simp [line_of]
    rw [h1, h2]
    simp [line_of, Function.comp_def]
  · have h1 : (((orders_of s.asks_.reverse).map (fun x => (false, x.1, x.2))).map
        (@line_of P)).filter (fun x => x.1 == true) = [] := by
      rw [List.filter_eq_nil_iff]
      intro a ha
      simp only [List.mem_map] at ha
      obtain ⟨_, ⟨_, _, rfl⟩, rfl⟩ := ha
      simp [line_of]
    have h2 : (((orders_of s.bids_).map (fun x => (true, x.1, x.2))).map
        (@line_of P)).filter (fun x => x.1 == true) =
        ((orders_of s.bids_).map (fun x => (true, x.1, x.2))).map line_of := by
      rw [List.filter_eq_self]
      intro a ha
      simp only [List.mem_map] at ha
      obtain ⟨_, ⟨_, _, rfl⟩, rfl⟩ := ha
      rfl
    rw [h1, h2]
    simp [line_of, Function.comp_def]

/-- Along the orders of a sorted ladder the prices never go back. -/
theorem orders_prices_pairwise {R : P → P → Prop} {m : Ladder P}
    (hs : m.Pairwise (fun a b => R a.1 b.1)) :
    ((orders_of m).map Prod.fst).Pairwise (fun a b => a = b ∨ R a b) := by
  induction m with
  | nil => simp [orders_of]
  | cons e rest ih =>
    obtain ⟨p, lvl⟩ := e
    rw [List.pairwise_cons] at hs
    rw [orders_of_cons, List.map_append, List.pairwise_append]
    refine ⟨?_, ih hs.2, ?_⟩
    · rw [List.map_map, List.pairwise_map]
      exact List.pairwise_of_forall (fun _ _ => Or.inl rfl)
    · intro a ha b hb
      simp only [List.map_map, List.mem_map, Function.comp_apply] at ha
      obtain ⟨_, _, rfl⟩ := ha
      obtain ⟨x, hx, rfl⟩ := List.mem_map.mp hb
      obtain ⟨lvl', hl', _⟩ := mem_orders_of.mp (show (x.1, x.2) ∈ orders_of rest from hx)
      exact Or.inr (hs.1 _ hl')

end DumpLemmas

section MoreSamples

theorem sample_book_positive : ReachablePositive sample_book :=
  ReachablePositive.add _ 3 99 7 true
    (ReachablePositive.add _ 2 101 5 false
      (ReachablePositive.add _ 1 99 10 true ReachablePositive.init (by decide)) (by decide))
    (by decide)

theorem reused_id_book_reachable : Reachable reused_id_book :=
  Reachable.add _ 1 98 5 true (Reachable.add _ 1 99 10 true Reachable.init)

theorem two_ask_book_reachable : Reachable two_ask_book :=
  Reachable.add _ 2 102 4 false (Reachable.add _ 1 101 5 false Reachable.init)

end MoreSamples

/-! ## The claims -/

section Claims

variable {P : Type} [LinearOrder P] [Zero P]

/-- C1. In every state reached from the empty book by `add_order` and `cancel_order`
calls whose inserts use ids that are not live, an id is a key of `all_orders_` if and
only if exactly one order of the ladder carries it, and the order recorded for a key
is in the level at the recorded price on the recorded side, with that id. -/
theorem index_ladder_agreement (s : OrderBook P) (h : ReachableFresh s) (id : Int) :
    (id ∈ index_ids s ↔ (ladder_ids s).count id = 1) ∧
    ∀ info, StdMap.find s.all_orders_ id = some info →
      ∃ lvl n, StdMap.find (side s info.is_bid) info.price = some lvl ∧ n ∈ lvl ∧
        n.order.id = id ∧ n.addr = info.position := by
  have hc := h.consistent
  refine ⟨⟨?_, ?_⟩, fun info hf => hc.wf.index_level hf⟩
  · intro hid
    exact List.count_eq_one_of_mem hc.ladder_ids_nodup (hc.wf.index_subset hid)
  · intro hcount
    apply hc.ladder_subset
    rw [← List.count_pos_iff, hcount]
    exact Nat.one_pos

theorem index_ladder_agreement_witness :
    ReachableFresh sample_book ∧
    (((3 : Int) ∈ index_ids sample_book ↔ (ladder_ids sample_book).count 3 = 1) ∧
      ∀ info, StdMap.find sample_book.all_orders_ 3 = some info →
        ∃ lvl n, StdMap.find (side sample_book info.is_bid) info.price = some lvl ∧ n ∈ lvl ∧
          n.order.id = 3 ∧ n.addr = info.position) :=
  ⟨sample_book_fresh, index_ladder_agreement sample_book sample_book_fresh 3⟩


/-- C2, as stated, fails: after `add_order(1, 99, 10, bid)`, `add_order(1, 98, 5, bid)`
and `cancel_order(1)` the index has no key while the ladder still holds an order with
id 1. -/
theorem no_drift_counterexample :
    ∃ r : OrderBook Int,
      cancel_order (add_order (add_order empty 1 99 10 true) 1 98 5 true) 1 = some r ∧
      index_ids r = [] ∧ ladder_ids r = [1] ∧
      ¬ (∀ id, id ∈ index_ids r ↔ id ∈ ladder_ids r) := by
  refine ⟨_, rfl, by decide, by decide, ?_⟩
  intro h
  have h1 := (h 1).mpr (by decide)
  revert h1
  decide

/-- C2, amended. After every call of every sequence each key of `all_orders_` is the
id of an order of the ladder and the next `cancel_order` returns; when moreover every
`add_order` used an id that was not live, the keys of `all_orders_` and the ids of the
orders of the ladder are the same set. -/
theorem no_drift_fresh (s : OrderBook P) (h : Reachable s) :
    (∀ id, id ∈ index_ids s → id ∈ ladder_ids s) ∧
    (∀ id, ∃ r, cancel_order s id = some r) ∧
    (ReachableFresh s → ∀ id, id ∈ index_ids s ↔ id ∈ ladder_ids s) :=
  ⟨fun _ hid => h.wellFormed.index_subset hid,
    fun id => cancel_order_total h.wellFormed id,
    fun hf _ => ⟨fun hid => h.wellFormed.index_subset hid,
      fun hid => hf.consistent.ladder_subset hid⟩⟩

theorem no_drift_fresh_witness :
    Reachable sample_book ∧
    ((∀ id, id ∈ index_ids sample_book → id ∈ ladder_ids sample_book) ∧
      (∀ id, ∃ r, cancel_order sample_book id = some r) ∧
      (ReachableFresh sample_book →
        ∀ id, id ∈ index_ids sample_book ↔ id ∈ ladder_ids sample_book)) :=
  ⟨sample_book_fresh.reachable, no_drift_fresh sample_book sample_book_fresh.reachable⟩


/-- C3. In the initial book and after every `add_order` or `cancel_order` call of any
sequence (each of which returns), `get_best_bid_ask` returns for the bid side the
greatest key of `bids_`, or 0 when `bids_` is empty, and for the ask side the least key
of `asks_`, or 0 when `asks_` is empty. -/
theorem best_prices_are_extremes (s : OrderBook P) (h : Reachable s) :
    (∀ id, ∃ r, cancel_order s id = some r) ∧
    (s.bids_ = [] → (get_best_bid_ask s).1 = 0) ∧
    (s.bids_ ≠ [] → (get_best_bid_ask s).1 ∈ StdMap.keys s.bids_ ∧
      ∀ k ∈ StdMap.keys s.bids_, k ≤ (get_best_bid_ask s).1) ∧
    (s.asks_ = [] → (get_best_bid_ask s).2 = 0) ∧
    (s.asks_ ≠ [] → (get_best_bid_ask s).2 ∈ StdMap.keys s.asks_ ∧
      ∀ k ∈ StdMap.keys s.asks_, (get_best_bid_ask s).2 ≤ k) := by
  have hw := h.wellFormed
  refine ⟨fun id => cancel_order_total hw id, ?_, ?_, ?_, ?_⟩
  · intro he
    simp [get_best_bid_ask, hw.best_bid_eq, he, front_price]
  · intro hne
    obtain ⟨h1, h2⟩ := front_price_first hw.sorted_bids hne
    simp only [get_best_bid_ask, hw.best_bid_eq]
    refine ⟨h1, fun k hk => ?_⟩
    rcases h2 k hk with e | e
    · exact le_of_eq e
    · exact le_of_lt e
  · intro he
    simp [get_best_bid_ask, hw.best_ask_eq, he, front_price]
  · intro hne
    obtain ⟨h1, h2⟩ := front_price_first hw.sorted_asks hne
    simp only [get_best_bid_ask, hw.best_ask_eq]
    refine ⟨h1, fun k hk => ?_⟩
    rcases h2 k hk with e | e
    · exact le_of_eq e.symm
    · exact le_of_lt e

theorem best_prices_are_extremes_witness :
    Reachable sample_book ∧
    ((∀ id, ∃ r, cancel_order sample_book id = some r) ∧
    (sample_book.bids_ = [] → (get_best_bid_ask sample_book).1 = 0) ∧
    (sample_book.bids_ ≠ [] → (get_best_bid_ask sample_book).1 ∈ StdMap.keys sample_book.bids_ ∧
      ∀ k ∈ StdMap.keys sample_book.bids_, k ≤ (get_best_bid_ask sample_book).1) ∧
    (sample_book.asks_ = [] → (get_best_bid_ask sample_book).2 = 0) ∧
    (sample_book.asks_ ≠ [] → (get_best_bid_ask sample_book).2 ∈ StdMap.keys sample_book.asks_ ∧
      ∀ k ∈ StdMap.keys sample_book.asks_, (get_best_bid_ask sample_book).2 ≤ k)) :=
  ⟨sample_book_fresh.reachable, best_prices_are_extremes sample_book sample_book_fresh.reachable⟩


/-- C4. In a reachable state, `cancel_order` of an id that is not a key of `all_orders_`
returns the state it was given (ladder, index and published best prices unchanged), and
for every id a `cancel_order` call returns and a second call with the same id returns
the state the first one gave; in any state at all, two calls with the same id give
what one call gives. -/
theorem cancel_absent_noop_idempotent (s : OrderBook P) (h : Reachable s) (id : Int) :
    (id ∉ index_ids s → cancel_order s id = some s) ∧
    (∃ r, cancel_order s id = some r ∧ cancel_order r id = some r) ∧
    ∀ t : OrderBook P,
      (cancel_order t id).bind (fun r => cancel_order r id) = cancel_order t id := by
  have twice : ∀ t r : OrderBook P, cancel_order t id = some r →
      cancel_order r id = some r := by
    intro t r hr
    cases hf : StdMap.find t.all_orders_ id with
    | none =>
      rw [cancel_order_absent t id hf] at hr
      cases hr
      exact cancel_order_absent t id hf
    | some info =>
      obtain ⟨hidx, _⟩ := cancel_order_live hf hr
      apply cancel_order_absent
      rw [hidx, StdMap.find_erase, if_pos rfl]
  refine ⟨fun hid => cancel_order_absent s id (StdMap.find_eq_none.mpr hid), ?_, ?_⟩
  · obtain ⟨r, hr⟩ := cancel_order_total h.wellFormed id
    exact ⟨r, hr, twice s r hr⟩
  · intro t
    cases ht : cancel_order t id with
    | none => rfl
    | some r => exact twice t r ht

theorem cancel_absent_noop_idempotent_witness :
    Reachable sample_book ∧
    (((7 : Int) ∉ index_ids sample_book → cancel_order sample_book 7 = some sample_book) ∧
      (∃ r, cancel_order sample_book 7 = some r ∧ cancel_order r 7 = some r) ∧
      ∀ t : OrderBook Int,
        (cancel_order t 7).bind (fun r => cancel_order r 7) = cancel_order t 7) :=
  ⟨sample_book_fresh.reachable,
    cancel_absent_noop_idempotent sample_book sample_book_fresh.reachable 7⟩

/-- C5. In a state reached with fresh ids, cancelling an id recorded in `all_orders_`
with price `p` and side `d` returns a state in which the id is no key of `all_orders_`
and no order of the ladder carries it; the level at `p` on side `d` was
`a ++ n :: b` with `n` the order of that id and is now `a ++ b`, absent from the map
when that is empty; every other level of side `d`, the whole opposite side and every
other entry of `all_orders_` are unchanged. -/
theorem cancel_live_postcondition (s : OrderBook P) (h : ReachableFresh s) (id : Int)
    (info : OrderInfo P) (hf : StdMap.find s.all_orders_ id = some info) :
    ∃ r, cancel_order s id = some r ∧
      StdMap.find r.all_orders_ id = none ∧ id ∉ ladder_ids r ∧
      (∃ a n b, StdMap.find (side s info.is_bid) info.price = some (a ++ n :: b) ∧
        n.order.id = id ∧
        StdMap.find (side r info.is_bid) info.price =
          (if a ++ b = [] then none else some (a ++ b))) ∧
      (∀ k, k ≠ info.price →
        StdMap.find (side r info.is_bid) k = StdMap.find (side s info.is_bid) k) ∧
      side r (!info.is_bid) = side s (!info.is_bid) ∧
      (∀ id', id' ≠ id → StdMap.find r.all_orders_ id' = StdMap.find s.all_orders_ id') := by
  have hcs := h.consistent
  obtain ⟨r, hr⟩ := cancel_order_total hcs.wf id
  obtain ⟨hidx, _⟩ := cancel_order_live hf hr
  obtain ⟨a, n, b, e1, _, e3, _, e5, e6⟩ := cancel_order_level hcs.wf hf hr
  have hnone : StdMap.find r.all_orders_ id = none := by
    rw [hidx, StdMap.find_erase, if_pos rfl]
  refine ⟨r, hr, hnone, ?_, ⟨a, n, b, e1, e3, ?_⟩, ?_, e6, ?_⟩
  · intro hmem
    have := (consistent_cancel hcs hr).ladder_subset hmem
    exact StdMap.find_eq_none.mp hnone this
  · rw [e5, if_pos rfl]
  · intro k hk
    rw [e5, if_neg hk]
  · intro id' hid
    rw [hidx, StdMap.find_erase, if_neg hid]

theorem cancel_live_postcondition_witness :
    ReachableFresh sample_book ∧
    StdMap.find sample_book.all_orders_ 1 = some { price := 99, is_bid := true, position := 0 } ∧
    ∃ r, cancel_order sample_book 1 = some r ∧
      StdMap.find r.all_orders_ 1 = none ∧ (1 : Int) ∉ ladder_ids r ∧
      (∃ a n b, StdMap.find (side sample_book true) 99 = some (a ++ n :: b) ∧
        n.order.id = 1 ∧
        StdMap.find (side r true) 99 = (if a ++ b = [] then none else some (a ++ b))) ∧
      (∀ k, k ≠ 99 → StdMap.find (side r true) k = StdMap.find (side sample_book true) k) ∧
      side r (!true) = side sample_book (!true) ∧
      (∀ id', id' ≠ 1 →
        StdMap.find r.all_orders_ id' = StdMap.find sample_book.all_orders_ id') :=
  ⟨sample_book_fresh, by decide,
    cancel_live_postcondition sample_book sample_book_fresh 1
      { price := 99, is_bid := true, position := 0 } (by decide)⟩


/-- C6. In a reachable state, `add_order(id, p, q, is_bid)` with an id that is no key of
`all_orders_` maps the id to `(p, is_bid, position)` where `position` is the address of
the new order and of no other order of the ladder; the level at `p` on the chosen side
is the new order, with that id and quantity `q`, followed by the previous orders of the
level (none if the level did not exist); every other level of that side, the whole
opposite side and every other entry of `all_orders_` are unchanged. -/
theorem add_order_postcondition (s : OrderBook P) (h : Reachable s) (id : Int) (p : P)
    (q : Nat) (is_bid : Bool) (_hid : id ∉ index_ids s) :
    ∃ n : Node, n.order = { id := id, quantity := q } ∧
      StdMap.find (add_order s id p q is_bid).all_orders_ id =
        some { price := p, is_bid := is_bid, position := n.addr } ∧
      (∀ x ∈ all_nodes (add_order s id p q is_bid), x.2.2.addr = n.addr → x = (is_bid, p, n)) ∧
      StdMap.find (side (add_order s id p q is_bid) is_bid) p =
        some (n :: (StdMap.find (side s is_bid) p).getD []) ∧
      (∀ k, k ≠ p → StdMap.find (side (add_order s id p q is_bid) is_bid) k =
        StdMap.find (side s is_bid) k) ∧
      side (add_order s id p q is_bid) (!is_bid) = side s (!is_bid) ∧
      (∀ id', id' ≠ id → StdMap.find (add_order s id p q is_bid).all_orders_ id' =
        StdMap.find s.all_orders_ id') := by
  have hw := h.wellFormed
  have hw' := wellFormed_add hw id p q is_bid
  have hfind := find_side_add s id p q is_bid
  refine ⟨{ addr := s.next_node, order := { id := id, quantity := q } }, rfl, ?_, ?_, ?_, ?_,
    side_add_other s id p q is_bid, ?_⟩
  · rw [add_order_index, StdMap.find_assign StdMap.strictTotal_lt, if_pos rfl]
  · intro x hx hxa
    have hnew : (is_bid, p, ({ addr := s.next_node, order := { id := id, quantity := q } } : Node))
        ∈ all_nodes (add_order s id p q is_bid) :=
      mem_all_nodes_of_find (by rw [hfind, if_pos rfl]) (List.mem_cons_self _ _)
    exact hw'.addr_inj hx hnew hxa
  · rw [hfind, if_pos rfl]
  · intro k hk
    rw [hfind, if_neg hk]
  · intro id' hid'
    rw [add_order_index, StdMap.find_assign StdMap.strictTotal_lt, if_neg hid']

theorem add_order_postcondition_witness :
    Reachable sample_book ∧ (4 : Int) ∉ index_ids sample_book ∧
    ∃ n : Node, n.order = { id := 4, quantity := 6 } ∧
      StdMap.find (add_order sample_book 4 99 6 true).all_orders_ 4 =
        some { price := 99, is_bid := true, position := n.addr } ∧
      (∀ x ∈ all_nodes (add_order sample_book 4 99 6 true),
        x.2.2.addr = n.addr → x = (true, 99, n)) ∧
      StdMap.find (side (add_order sample_book 4 99 6 true) true) 99 =
        some (n :: (StdMap.find (side sample_book true) 99).getD []) ∧
      (∀ k, k ≠ 99 → StdMap.find (side (add_order sample_book 4 99 6 true) true) k =
        StdMap.find (side sample_book true) k) ∧
      side (add_order sample_book 4 99 6 true) (!true) = side sample_book (!true) ∧
      (∀ id', id' ≠ 4 → StdMap.find (add_order sample_book 4 99 6 true).all_orders_ id' =
        StdMap.find sample_book.all_orders_ id') :=
  ⟨sample_book_fresh.reachable, by decide,
    add_order_postcondition sample_book sample_book_fresh.reachable 4 99 6 true (by decide)⟩


/-- C7, as stated, fails: in the sample book order 1 was inserted at price 99 on the bid
side before order 3, and the level's list, read from its first element to its last,
is order 3 then order 1. -/
theorem fifo_counterexample :
    ReachableFresh (add_order (add_order (empty : OrderBook Int) 1 99 10 true) 3 99 7 true) ∧
    ∃ lvl, StdMap.find (add_order (add_order (empty : OrderBook Int) 1 99 10 true) 3 99 7 true).bids_
        99 = some lvl ∧
      level_ids lvl = [3, 1] ∧ ¬ [1, 3].Sublist (level_ids lvl) :=
  ⟨ReachableFresh.add _ 3 99 7 true
      (ReachableFresh.add _ 1 99 10 true ReachableFresh.init (by decide)) (by decide),
    _, rfl, by decide, by decide⟩

/-- C7, amended. Let order A be inserted with a fresh id at a price and side in a state
reached with fresh ids, and later order B with a fresh id at the same price and side,
the calls before, between and after using fresh ids and cancelling neither A nor B.
Then the list of that price level, read from its first element to its last, lists B
before A (newest first), and does not list A before B. -/
theorem level_lists_newest_first (s0 : OrderBook P) (h0 : ReachableFresh s0)
    (idA idB : Int) (qA qB : Nat) (p : P) (d : Bool) (s1 s2 : OrderBook P)
    (hA : idA ∉ index_ids s0)
    (h1 : FreshPath [idA] (add_order s0 idA p qA d) s1)
    (hB : idB ∉ index_ids s1)
    (h2 : FreshPath [idA, idB] (add_order s1 idB p qB d) s2) :
    ∃ lvl, StdMap.find (side s2 d) p = some lvl ∧
      [({ id := idB, quantity := qB } : Order), { id := idA, quantity := qA }].Sublist
        (lvl.map Node.order) ∧
      [idB, idA].Sublist (level_ids lvl) ∧ ¬ [idA, idB].Sublist (level_ids lvl) := by
  have hfA := StdMap.find_eq_none.mpr hA
  have hfB := StdMap.find_eq_none.mpr hB
  have hrA : ReachableFresh (add_order s0 idA p qA d) := ReachableFresh.add s0 idA p qA d h0 hfA
  have hr1 := h1.reachableFresh hrA
  have hrB : ReachableFresh (add_order s1 idB p qB d) := ReachableFresh.add s1 idB p qB d hr1 hfB
  have hr2 := h2.reachableFresh hrB
  obtain ⟨lvl1, hf1, hw1⟩ := h1.sublist_preserved hrA d p
    (w := [{ addr := s0.next_node, order := { id := idA, quantity := qA } }])
    (by simp) (by simp)
    ⟨_, by rw [find_side_add, if_pos rfl], by simp⟩
  have hmemA := mem_all_nodes_of_find hf1 (List.singleton_sublist.mp hw1)
  have hidxA := hr1.consistent.ladder_indexed _ hmemA
  have hne : idA ≠ idB := by
    intro e
    simp only at hidxA
    rw [e, hfB] at hidxA
    cases hidxA
  obtain ⟨lvl2, hf2, hw2⟩ := h2.sublist_preserved hrB d p
    (w := [{ addr := s1.next_node, order := { id := idB, quantity := qB } },
      { addr := s0.next_node, order := { id := idA, quantity := qA } }])
    (by simp) (by simp)
    ⟨_, by rw [find_side_add, if_pos rfl, hf1], by simpa using hw1⟩
  have hids : [idB, idA].Sublist (level_ids lvl2) := by
    simpa [level_ids] using hw2.map (fun n : Node => n.order.id)
  refine ⟨lvl2, hf2, ?_, hids, ?_⟩
  · simpa using hw2.map Node.order
  · exact not_sublist_swap (hr2.consistent.level_ids_nodup hf2) hne hids

theorem level_lists_newest_first_witness :
    ReachableFresh (empty : OrderBook Int) ∧ (1 : Int) ∉ index_ids (empty : OrderBook Int) ∧
    FreshPath [1] (add_order (empty : OrderBook Int) 1 99 10 true)
      (add_order (add_order (empty : OrderBook Int) 1 99 10 true) 2 101 5 false) ∧
    (3 : Int) ∉ index_ids
      (add_order (add_order (empty : OrderBook Int) 1 99 10 true) 2 101 5 false) ∧
    FreshPath [1, 3] sample_book sample_book ∧
    ∃ lvl, StdMap.find (side sample_book true) 99 = some lvl ∧
      [({ id := 3, quantity := 7 } : Order), { id := 1, quantity := 10 }].Sublist
        (lvl.map Node.order) ∧
      [(3 : Int), 1].Sublist (level_ids lvl) ∧ ¬ [(1 : Int), 3].Sublist (level_ids lvl) :=
  ⟨ReachableFresh.init, by decide,
    FreshPath.add _ _ 2 101 5 false (FreshPath.refl _) (by decide), by decide,
    FreshPath.refl _,
    level_lists_newest_first (empty : OrderBook Int) ReachableFresh.init 1 3 10 7 99 true
      (add_order (add_order (empty : OrderBook Int) 1 99 10 true) 2 101 5 false) sample_book
      (by decide) (FreshPath.add _ _ 2 101 5 false (FreshPath.refl _) (by decide))
      (by decide) (FreshPath.refl _)⟩


/-- C8. In every state reached from the empty book by any sequence of `add_order` and
`cancel_order` calls, every key of `bids_` and every key of `asks_` maps to a non-empty
list of orders. -/
theorem no_empty_price_level (s : OrderBook P) (h : Reachable s) :
    (∀ p lvl, StdMap.find s.bids_ p = some lvl → lvl ≠ []) ∧
    (∀ p lvl, StdMap.find s.asks_ p = some lvl → lvl ≠ []) ∧
    (∀ e ∈ s.bids_, e.2 ≠ []) ∧ (∀ e ∈ s.asks_, e.2 ≠ []) :=
  ⟨fun _ _ hf => h.wellFormed.nonempty_bids _ (StdMap.mem_of_find hf),
    fun _ _ hf => h.wellFormed.nonempty_asks _ (StdMap.mem_of_find hf),
    h.wellFormed.nonempty_bids, h.wellFormed.nonempty_asks⟩

theorem no_empty_price_level_witness :
    Reachable sample_book ∧
    ((∀ p lvl, StdMap.find sample_book.bids_ p = some lvl → lvl ≠ []) ∧
    (∀ p lvl, StdMap.find sample_book.asks_ p = some lvl → lvl ≠ []) ∧
    (∀ e ∈ sample_book.bids_, e.2 ≠ []) ∧ (∀ e ∈ sample_book.asks_, e.2 ≠ [])) :=
  ⟨sample_book_fresh.reachable, no_empty_price_level sample_book sample_book_fresh.reachable⟩


/-- C9. Starting from the empty book, after `add_order` calls for N >= 1 orders with
distinct ids and pairwise distinct prices, all on the bid side, `get_best_bid_ask().first`
is the maximum of the N prices; after N >= 1 such calls on the ask side,
`get_best_bid_ask().second` is the minimum of the N prices. -/
theorem best_is_extreme_of_inserted (os : List (Int × P × Nat)) (hN : 1 ≤ os.length)
    (_hids : (os.map (fun o => o.1)).Nodup) (_hprices : (os.map (fun o => o.2.1)).Nodup) :
    ((get_best_bid_ask (add_all empty true os)).1 ∈ os.map (fun o => o.2.1) ∧
      ∀ p ∈ os.map (fun o => o.2.1), p ≤ (get_best_bid_ask (add_all empty true os)).1) ∧
    ((get_best_bid_ask (add_all empty false os)).2 ∈ os.map (fun o => o.2.1) ∧
      ∀ p ∈ os.map (fun o => o.2.1), (get_best_bid_ask (add_all empty false os)).2 ≤ p) := by
  obtain ⟨b1, b2⟩ := best_after_add_all (P := P) true os hN
  obtain ⟨a1, a2⟩ := best_after_add_all (P := P) false os hN
  simp only [best, if_true, Bool.false_eq_true, if_false] at b1 b2 a1 a2
  refine ⟨⟨b1, fun p hp => ?_⟩, ⟨a1, fun p hp => ?_⟩⟩
  · rcases b2 p hp with e | e
    · exact le_of_eq e
    · exact le_of_lt e
  · rcases a2 p hp with e | e
    · exact le_of_eq e.symm
    · exact le_of_lt e

theorem best_is_extreme_of_inserted_witness :
    1 ≤ [((1 : Int), (99 : Int), 10), (2, 101, 5), (3, 100, 7)].length ∧
    ([((1 : Int), (99 : Int), 10), (2, 101, 5), (3, 100, 7)].map (fun o => o.1)).Nodup ∧
    ([((1 : Int), (99 : Int), 10), (2, 101, 5), (3, 100, 7)].map (fun o => o.2.1)).Nodup ∧
    (get_best_bid_ask (add_all empty true [((1 : Int), (99 : Int), 10), (2, 101, 5), (3, 100, 7)])).1
      = 101 ∧
    (get_best_bid_ask (add_all empty false [((1 : Int), (99 : Int), 10), (2, 101, 5), (3, 100, 7)])).2
      = 99 ∧
    (((get_best_bid_ask (add_all empty true [((1 : Int), (99 : Int), 10), (2, 101, 5), (3, 100, 7)])).1
        ∈ [((1 : Int), (99 : Int), 10), (2, 101, 5), (3, 100, 7)].map (fun o => o.2.1) ∧
      ∀ p ∈ [((1 : Int), (99 : Int), 10), (2, 101, 5), (3, 100, 7)].map (fun o => o.2.1),
        p ≤ (get_best_bid_ask
          (add_all empty true [((1 : Int), (99 : Int), 10), (2, 101, 5), (3, 100, 7)])).1) ∧
    ((get_best_bid_ask (add_all empty false [((1 : Int), (99 : Int), 10), (2, 101, 5), (3, 100, 7)])).2
        ∈ [((1 : Int), (99 : Int), 10), (2, 101, 5), (3, 100, 7)].map (fun o => o.2.1) ∧
      ∀ p ∈ [((1 : Int), (99 : Int), 10), (2, 101, 5), (3, 100, 7)].map (fun o => o.2.1),
        (get_best_bid_ask
          (add_all empty false [((1 : Int), (99 : Int), 10), (2, 101, 5), (3, 100, 7)])).2 ≤ p)) :=
  ⟨by decide, by decide, by decide, by decide, by decide,
    best_is_extreme_of_inserted [((1 : Int), (99 : Int), 10), (2, 101, 5), (3, 100, 7)]
      (by decide) (by decide) (by decide)⟩

/-- C10. In a state reached with fresh ids, calling `cancel_order` for the ids of a list
that holds exactly the ids live on one side, in any order, returns a state in which
`get_best_bid_ask` gives 0 for that side and the same value as before for the other
side. -/
theorem cancel_side_resets_best (s : OrderBook P) (h : ReachableFresh s) (d : Bool)
    (ids : List Int)
    (hids : ∀ id, id ∈ ids ↔
      ∃ info, StdMap.find s.all_orders_ id = some info ∧ info.is_bid = d) :
    ∃ r, cancel_all s ids = some r ∧ best r d = 0 ∧ best r (!d) = best s (!d) ∧
      side r d = [] := by
  have hcs := h.consistent
  obtain ⟨r, e1, e2, e3, e4⟩ := cancel_all_spec d ids s hcs (by
    intro id hid info hf
    obtain ⟨info', hf', hd⟩ := (hids id).mp hid
    rw [hf] at hf'
    cases hf'
    exact hd)
  have hempty : side r d = [] := by
    rw [List.eq_nil_iff_forall_not_mem]
    intro e he
    have hne := e2.wf.nonempty_side d e he
    obtain ⟨n, hn⟩ := List.exists_mem_of_ne_nil _ hne
    have hmem : (d, e.1, n) ∈ all_nodes r :=
      mem_all_nodes.mpr (mem_orders_of.mpr ⟨e.2, he, hn⟩)
    have hidx := e2.ladder_indexed _ hmem
    simp only at hidx
    rw [e4] at hidx
    by_cases hin : n.order.id ∈ ids
    · rw [if_pos hin] at hidx; cases hidx
    · rw [if_neg hin] at hidx
      exact hin ((hids _).mpr ⟨_, hidx, rfl⟩)
  refine ⟨r, e1, ?_, ?_, hempty⟩
  · rw [best_eq_front_price e2.wf, hempty]
    rfl
  · rw [best_eq_front_price e2.wf, best_eq_front_price hcs.wf, e3]

theorem cancel_side_resets_best_witness :
    ReachableFresh sample_book ∧
    (∀ id, id ∈ [(3 : Int), 1] ↔
      ∃ info, StdMap.find sample_book.all_orders_ id = some info ∧ info.is_bid = true) ∧
    ∃ r, cancel_all sample_book [3, 1] = some r ∧ best r true = 0 ∧
      best r (!true) = best sample_book (!true) ∧ side r true = [] :=
  ⟨sample_book_fresh, sample_book_bid_ids,
    cancel_side_resets_best sample_book sample_book_fresh true [3, 1] sample_book_bid_ids⟩

/-- C11. On the empty book, `add_order(1, 99, 10, bid)` and `add_order(2, 101, 5, ask)`
make `get_best_bid_ask` return (99, 101); then `cancel_order(1)` returns and makes it
return (0, 101); then `add_order(3, 100, 7, bid)` makes it return (100, 101). -/
theorem example_scenario :
    get_best_bid_ask (add_order (add_order (empty : OrderBook Int) 1 99 10 true) 2 101 5 false)
      = (99, 101) ∧
    (cancel_order (add_order (add_order (empty : OrderBook Int) 1 99 10 true) 2 101 5 false)
      1).map get_best_bid_ask = some (0, 101) ∧
    (cancel_order (add_order (add_order (empty : OrderBook Int) 1 99 10 true) 2 101 5 false)
      1).map (fun s => get_best_bid_ask (add_order s 3 100 7 true)) = some (100, 101) := by
  decide

/-- C12. In every state reached by `add_order` calls whose prices are all strictly
positive and by `cancel_order` calls, the best bid `get_best_bid_ask` returns is 0 if and
only if `bids_` holds no order, and the best ask it returns is 0 if and only if `asks_`
holds no order. -/
theorem zero_sentinel_iff_side_empty (s : OrderBook P) (h : ReachablePositive s) :
    ((get_best_bid_ask s).1 = 0 ↔ orders_of s.bids_ = []) ∧
    ((get_best_bid_ask s).2 = 0 ↔ orders_of s.asks_ = []) :=
  ⟨best_zero_iff h true, best_zero_iff h false⟩

theorem zero_sentinel_iff_side_empty_witness :
    ReachablePositive sample_book ∧
    (((get_best_bid_ask sample_book).1 = 0 ↔ orders_of sample_book.bids_ = []) ∧
     ((get_best_bid_ask sample_book).2 = 0 ↔ orders_of sample_book.asks_ = [])) :=
  ⟨sample_book_positive, zero_sentinel_iff_side_empty sample_book sample_book_positive⟩

/-- C14. In a reachable state in which id `x` is live, `add_order(x, p2, q2, side2)`
leaves the order recorded for `x` in the ladder and makes the entry of `x` in
`all_orders_` refer to the new order; the following `cancel_order(x)` returns and
removes only the new order (the ladder is again what it was before the insert), after
which `x` is no key of `all_orders_` while the earlier order with id `x` is still in
the ladder, and it stays there after any later sequence of `add_order` and
`cancel_order` calls. -/
theorem duplicate_insert_orphans (s : OrderBook P) (h : Reachable s) (x : Int)
    (info : OrderInfo P) (hf : StdMap.find s.all_orders_ x = some info) (p2 : P) (q2 : Nat)
    (side2 : Bool) :
    ∃ n0 : Node, n0.order.id = x ∧ n0.addr = info.position ∧
      (info.is_bid, info.price, n0) ∈ all_nodes s ∧
      (info.is_bid, info.price, n0) ∈ all_nodes (add_order s x p2 q2 side2) ∧
      StdMap.find (add_order s x p2 q2 side2).all_orders_ x =
        some { price := p2, is_bid := side2, position := s.next_node } ∧
      (side2, p2, ({ addr := s.next_node, order := { id := x, quantity := q2 } } : Node)) ∈
        all_nodes (add_order s x p2 q2 side2) ∧
      s.next_node ≠ n0.addr ∧
      ∃ r, cancel_order (add_order s x p2 q2 side2) x = some r ∧
        r.bids_ = s.bids_ ∧ r.asks_ = s.asks_ ∧ x ∉ index_ids r ∧
        (info.is_bid, info.price, n0) ∈ all_nodes r ∧
        ∀ t, Steps r t → (info.is_bid, info.price, n0) ∈ all_nodes t := by
  have hw := h.wellFormed
  obtain ⟨n0, hn0, ha, hid⟩ := hw.index_sound x info hf
  have hperm := all_nodes_perm_add s hw.sorted_bids hw.sorted_asks x p2 q2 side2
  obtain ⟨r, e1, e2, e3, e4, _, _⟩ := cancel_after_add hw x p2 q2 side2
  have hnodes : all_nodes r = all_nodes s := by simp [all_nodes, e2, e3]
  have hrw : WellFormed r :=
    wellFormed_cancel (wellFormed_add hw x p2 q2 side2) e1
  have hmem_r : (info.is_bid, info.price, n0) ∈ all_nodes r := hnodes ▸ hn0
  have hno : ∀ id' info', StdMap.find r.all_orders_ id' = some info' →
      info'.position ≠ n0.addr := by
    intro id' info' hf' hpos
    rw [e4, StdMap.find_erase] at hf'
    by_cases hx : id' = x
    · rw [if_pos hx] at hf'; cases hf'
    · rw [if_neg hx] at hf'
      obtain ⟨n', hn', ha', hid'⟩ := hw.index_sound id' info' hf'
      have heq := hw.addr_inj hn' hn0 (by simp [ha', hpos])
      have hnn : n' = n0 := by
        have := congrArg (fun y : Bool × P × Node => y.2.2) heq
        simpa using this
      exact hx (by rw [← hid', hnn, hid])
  refine ⟨n0, hid, ha, hn0, hperm.mem_iff.mpr (List.mem_cons_of_mem _ hn0), ?_,
    hperm.mem_iff.mpr (List.mem_cons_self _ _), Nat.ne_of_gt (hw.addr_lt _ hn0),
    r, e1, e2, e3, ?_, hmem_r, ?_⟩
  · rw [add_order_index, StdMap.find_assign StdMap.strictTotal_lt, if_pos rfl]
  · apply StdMap.find_eq_none.mp
    rw [e4, StdMap.find_erase, if_pos rfl]
  · intro t ht
    exact (ht.orphan_stays hrw hmem_r hno).1

theorem duplicate_insert_orphans_witness :
    Reachable sample_book ∧
    StdMap.find sample_book.all_orders_ 1 = some { price := 99, is_bid := true, position := 0 } ∧
    ∃ n0 : Node, n0.order.id = 1 ∧ n0.addr = 0 ∧
      (true, 99, n0) ∈ all_nodes sample_book ∧
      (true, 99, n0) ∈ all_nodes (add_order sample_book 1 98 5 true) ∧
      StdMap.find (add_order sample_book 1 98 5 true).all_orders_ 1 =
        some { price := 98, is_bid := true, position := sample_book.next_node } ∧
      (true, 98, ({ addr := sample_book.next_node, order := { id := 1, quantity := 5 } } : Node)) ∈
        all_nodes (add_order sample_book 1 98 5 true) ∧
      sample_book.next_node ≠ n0.addr ∧
      ∃ r, cancel_order (add_order sample_book 1 98 5 true) 1 = some r ∧
        r.bids_ = sample_book.bids_ ∧ r.asks_ = sample_book.asks_ ∧ (1 : Int) ∉ index_ids r ∧
        (true, 99, n0) ∈ all_nodes r ∧
        ∀ t, Steps r t → (true, 99, n0) ∈ all_nodes t :=
  ⟨sample_book_fresh.reachable, by decide,
    duplicate_insert_orphans sample_book sample_book_fresh.reachable 1
      { price := 99, is_bid := true, position := 0 } (by decide) 98 5 true⟩

/-- C15. In every state reached with fresh ids, each price level's list, read from its
first element to its last, has strictly decreasing insertion times (newest first), every
order of the ladder was inserted before the value the counter now has, and neither an
`add_order` with a fresh id nor a `cancel_order` changes which of two orders is met
first, for any two orders that are in the same level before and after the call. -/
theorem arrival_order_preserved (s : OrderBook P) (h : ReachableFresh s) :
    (∀ d p lvl, StdMap.find (side s d) p = some lvl →
      (lvl.map insertion_time).Pairwise (fun a b => a > b)) ∧
    (∀ x ∈ all_nodes s, insertion_time x.2.2 < s.next_node) ∧
    (∀ id p q b, id ∉ index_ids s → ∀ d k lvl lvl' n1 n2,
      StdMap.find (side s d) k = some lvl →
      StdMap.find (side (add_order s id p q b) d) k = some lvl' →
      n1 ∈ lvl → n2 ∈ lvl → n1 ∈ lvl' → n2 ∈ lvl' →
      ([n1, n2].Sublist lvl ↔ [n1, n2].Sublist lvl')) ∧
    (∀ id r, cancel_order s id = some r → ∀ d k lvl lvl' n1 n2,
      StdMap.find (side s d) k = some lvl →
      StdMap.find (side r d) k = some lvl' →
      n1 ∈ lvl → n2 ∈ lvl → n1 ∈ lvl' → n2 ∈ lvl' →
      ([n1, n2].Sublist lvl ↔ [n1, n2].Sublist lvl')) := by
  have hr := h.reachable
  refine ⟨?_, hr.wellFormed.addr_lt, ?_, ?_⟩
  · intro d p lvl hf
    rw [List.pairwise_map]
    exact hr.levels_decreasing d p lvl hf
  · intro id p q b _ d k lvl lvl' n1 n2 hf hf' a1 a2 b1 b2
    have hr' : Reachable (add_order s id p q b) := Reachable.add s id p q b hr
    rw [sublist_pair_iff (hr.levels_decreasing d k lvl hf) a1 a2,
      sublist_pair_iff (hr'.levels_decreasing d k lvl' hf') b1 b2]
  · intro id r hc d k lvl lvl' n1 n2 hf hf' a1 a2 b1 b2
    have hr' : Reachable r := Reachable.cancel s r id hr hc
    rw [sublist_pair_iff (hr.levels_decreasing d k lvl hf) a1 a2,
      sublist_pair_iff (hr'.levels_decreasing d k lvl' hf') b1 b2]

theorem arrival_order_preserved_witness :
    ReachableFresh sample_book ∧
    ((∀ d p lvl, StdMap.find (side sample_book d) p = some lvl →
      (lvl.map insertion_time).Pairwise (fun a b => a > b)) ∧
    (∀ x ∈ all_nodes sample_book, insertion_time x.2.2 < sample_book.next_node) ∧
    (∀ id p q b, id ∉ index_ids sample_book → ∀ d k lvl lvl' n1 n2,
      StdMap.find (side sample_book d) k = some lvl →
      StdMap.find (side (add_order sample_book id p q b) d) k = some lvl' →
      n1 ∈ lvl → n2 ∈ lvl → n1 ∈ lvl' → n2 ∈ lvl' →
      ([n1, n2].Sublist lvl ↔ [n1, n2].Sublist lvl')) ∧
    (∀ id r, cancel_order sample_book id = some r → ∀ d k lvl lvl' n1 n2,
      StdMap.find (side sample_book d) k = some lvl →
      StdMap.find (side r d) k = some lvl' →
      n1 ∈ lvl → n2 ∈ lvl → n1 ∈ lvl' → n2 ∈ lvl' →
      ([n1, n2].Sublist lvl ↔ [n1, n2].Sublist lvl'))) :=
  ⟨sample_book_fresh, arrival_order_preserved sample_book sample_book_fresh⟩

/-- C16. In every reachable state the price levels of `bids_`, in iteration order, have
strictly decreasing prices and the price levels of `asks_`, in iteration order, have
strictly increasing prices; no price occurs in two levels of the same side. -/
theorem ladder_ordering (s : OrderBook P) (h : Reachable s) :
    (StdMap.keys s.bids_).Pairwise (fun a b => a > b) ∧
    (StdMap.keys s.asks_).Pairwise (fun a b => a < b) ∧
    (StdMap.keys s.bids_).Nodup ∧ (StdMap.keys s.asks_).Nodup := by
  have hb := pairwise_keys h.wellFormed.sorted_bids
  have ha := pairwise_keys h.wellFormed.sorted_asks
  refine ⟨hb, ha, ?_, ?_⟩
  · exact hb.imp (fun hab => ne_of_gt hab)
  · exact ha.imp (fun hab => ne_of_lt hab)

theorem ladder_ordering_witness :
    Reachable sample_book ∧
    ((StdMap.keys sample_book.bids_).Pairwise (fun a b => a > b) ∧
    (StdMap.keys sample_book.asks_).Pairwise (fun a b => a < b) ∧
    (StdMap.keys sample_book.bids_).Nodup ∧ (StdMap.keys sample_book.asks_).Nodup) :=
  ⟨sample_book_fresh.reachable, ladder_ordering sample_book sample_book_fresh.reachable⟩

/-- C17, as stated, fails: with asks at 101 and 102 `print_book` writes the order line
of price 102 before that of price 101, so the ask levels are not listed from lowest to
highest price. -/
theorem dump_order_counterexample :
    Reachable two_ask_book ∧
    order_lines (print_book two_ask_book) = [(false, 102, 4, 2), (false, 101, 5, 1)] ∧
    line_prices false (print_book two_ask_book) = [102, 101] ∧
    ¬ (line_prices false (print_book two_ask_book)).Pairwise (fun a b => a ≤ b) :=
  ⟨Reachable.add _ 2 102 4 false (Reachable.add _ 1 101 5 false Reachable.init),
    by decide, by decide, by decide⟩

/-- C17, amended. For every reachable state the order lines `print_book` writes are
the ask orders, level by level from the last level of `asks_` to the first, followed by
the bid orders, level by level from the first level of `bids_` to the last, each with
its level's price, its quantity and its id; they hold every order of the ladder exactly
once; the prices of the ask lines never increase and the prices of the bid lines never
increase (asks from highest to lowest price, bids from highest to lowest price, the
orders of one price contiguous). -/
theorem dump_content_and_order (s : OrderBook P) (h : Reachable s) :
    order_lines (print_book s) =
      ((orders_of s.asks_.reverse).map (fun x => (false, x.1, x.2))).map line_of ++
      ((orders_of s.bids_).map (fun x => (true, x.1, x.2))).map line_of ∧
    (order_lines (print_book s)).Perm ((all_nodes s).map line_of) ∧
    (line_prices false (print_book s)).Pairwise (fun a b => a ≥ b) ∧
    (line_prices true (print_book s)).Pairwise (fun a b => a ≥ b) := by
  have hw := h.wellFormed
  obtain ⟨hp1, hp2⟩ := line_prices_print_book s
  refine ⟨order_lines_print_book s, ?_, ?_, ?_⟩
  · rw [order_lines_print_book]
    unfold all_nodes
    rw [List.map_append]
    refine List.Perm.trans ?_ List.perm_append_comm
    exact List.Perm.append_right _ (((orders_of_reverse_perm s.asks_).map _).map _)
  · rw [hp1]
    have hrev : s.asks_.reverse.Pairwise (fun a b => a.1 > b.1) := by
      rw [List.pairwise_reverse]
      exact hw.sorted_asks
    refine (orders_prices_pairwise hrev).imp ?_
    intro a b hab
    rcases hab with e | e
    · exact le_of_eq e.symm
    · exact le_of_lt e
  · rw [hp2]
    refine (orders_prices_pairwise hw.sorted_bids).imp ?_
    intro a b hab
    rcases hab with e | e
    · exact le_of_eq e.symm
    · exact le_of_lt e

theorem dump_content_and_order_witness :
    Reachable two_ask_book ∧
    (order_lines (print_book two_ask_book) =
      ((orders_of two_ask_book.asks_.reverse).map (fun x => (false, x.1, x.2))).map line_of ++
      ((orders_of two_ask_book.bids_).map (fun x => (true, x.1, x.2))).map line_of ∧
    (order_lines (print_book two_ask_book)).Perm ((all_nodes two_ask_book).map line_of) ∧
    (line_prices false (print_book two_ask_book)).Pairwise (fun a b => a ≥ b) ∧
    (line_prices true (print_book two_ask_book)).Pairwise (fun a b => a ≥ b)) :=
  ⟨two_ask_book_reachable, dump_content_and_order two_ask_book two_ask_book_reachable⟩

/-- C18. In every state reached from the empty book by any sequence of `add_order` and
`cancel_order` calls, reused live ids included, every entry of `all_orders_` refers to an
order with its id that is in the level at its price on its side; so `cancel_order` of
that id finds the level, returns, and unlinks from the level an order carrying the
cancelled id. -/
theorem cancel_never_dangles (s : OrderBook P) (h : Reachable s) (id : Int)
    (info : OrderInfo P) (hf : StdMap.find s.all_orders_ id = some info) :
    (∃ lvl n, StdMap.find (side s info.is_bid) info.price = some lvl ∧ n ∈ lvl ∧
      n.order.id = id ∧ n.addr = info.position) ∧
    ∃ r a n b, cancel_order s id = some r ∧
      StdMap.find (side s info.is_bid) info.price = some (a ++ n :: b) ∧
      n.addr = info.position ∧ n.order.id = id ∧
      StdMap.find (side r info.is_bid) info.price =
        (if a ++ b = [] then none else some (a ++ b)) := by
  have hw := h.wellFormed
  refine ⟨hw.index_level hf, ?_⟩
  obtain ⟨r, hr⟩ := cancel_order_total hw id
  obtain ⟨a, n, b, e1, e2, e3, _, e5, _⟩ := cancel_order_level hw hf hr
  exact ⟨r, a, n, b, hr, e1, e2, e3, by rw [e5, if_pos rfl]⟩

theorem cancel_never_dangles_witness :
    Reachable reused_id_book ∧
    StdMap.find reused_id_book.all_orders_ 1 =
      some { price := 98, is_bid := true, position := 1 } ∧
    ((∃ lvl n, StdMap.find (side reused_id_book true) 98 = some lvl ∧ n ∈ lvl ∧
      n.order.id = 1 ∧ n.addr = 1) ∧
    ∃ r a n b, cancel_order reused_id_book 1 = some r ∧
      StdMap.find (side reused_id_book true) 98 = some (a ++ n :: b) ∧
      n.addr = 1 ∧ n.order.id = 1 ∧
      StdMap.find (side r true) 98 = (if a ++ b = [] then none else some (a ++ b))) :=
  ⟨reused_id_book_reachable, by decide,
    cancel_never_dangles reused_id_book reused_id_book_reachable 1
      { price := 98, is_bid := true, position := 1 } (by decide)⟩

/-- C19. For every reachable state `s`, every id that is no key of `all_orders_` and
every price, quantity and side, `add_order` followed by `cancel_order` of that id
returns a state equal to `s` in `bids_`, in `asks_`, in `all_orders_` and in the
published best bid and best ask. -/
theorem add_then_cancel_is_identity (s : OrderBook P) (h : Reachable s) (id : Int)
    (hid : id ∉ index_ids s) (p : P) (q : Nat) (is_bid : Bool) :
    ∃ r, cancel_order (add_order s id p q is_bid) id = some r ∧
      r.bids_ = s.bids_ ∧ r.asks_ = s.asks_ ∧ r.all_orders_ = s.all_orders_ ∧
      get_best_bid_ask r = get_best_bid_ask s := by
  obtain ⟨r, e1, e2, e3, e4, e5, e6⟩ := cancel_after_add h.wellFormed id p q is_bid
  refine ⟨r, e1, e2, e3, ?_, ?_⟩
  · rw [e4]
    apply StdMap.erase_of_not_mem
    intro e he hk
    exact hid (List.mem_map.mpr ⟨e, he, hk⟩)
  · simp [get_best_bid_ask, e5, e6]

theorem add_then_cancel_is_identity_witness :
    Reachable sample_book ∧ (4 : Int) ∉ index_ids sample_book ∧
    ∃ r, cancel_order (add_order sample_book 4 99 6 true) 4 = some r ∧
      r.bids_ = sample_book.bids_ ∧ r.asks_ = sample_book.asks_ ∧
      r.all_orders_ = sample_book.all_orders_ ∧
      get_best_bid_ask r = get_best_bid_ask sample_book :=
  ⟨sample_book_fresh.reachable, by decide,
    add_then_cancel_is_identity sample_book sample_book_fresh.reachable 4 (by decide) 99 6 true⟩

end Claims

end TradingOrderBook
